import Mathlib

/-!
Verification of the `stargazer` repository (GitHub repository audience
extractor) against its natural-language specification.

The Python sources are shallowly embedded:

* `stargazer/github_client.py` — the transport error classification
  (`make_request`), the generic user paginator (`paginate_users`), the
  fork-list walk (`get_forks`), and the three email-discovery strategies
  together with the email selection logic of `get_user_info`.
* `stargazer/extractor.py` — identifier resolution
  (`parse_repo_identifier`), the stargazer/forker section drivers
  (`extract_stargazers` / `extract_forkers`) and the orchestrator
  (`extract_repository_info`).

Network I/O is abstracted by finite oracles: a paginated endpoint is a
finite list of page responses (the response to page `n` is the `n`-th
entry; pages beyond the list are empty, matching the finitely many records
upstream), and each fallible call is an `Except` value.  Python strings
are modelled as `String` or `List Char`; Python truthiness of optional
integers and strings is modelled explicitly (`pyTruthyNat`, `pyFalsyStr`).
-/

/-- Errors raised by `GitHubClient._make_request` (`GitHubAPIError` and its
`RateLimitError` subclass), by raise site. -/
inductive ApiError : Type where
  | notFound : ApiError
  | forbidden : ApiError
  | rateLimited : Int → ApiError
  | httpError : Nat → ApiError
  | networkError : ApiError
deriving DecidableEq

/-- An HTTP response as seen by `_make_request` after the underlying
retry layer: a status code, the `X-RateLimit-Reset` header (already
parsed to epoch seconds; absent header reads as the Python default `0`),
and the decoded JSON body. -/
structure HttpResponse (α : Type) : Type where
  status : Nat
  rateLimitReset : Option Int
  body : α

/-- `GitHubClient._make_request`, response classification
(github_client.py lines 86-109): a 429 is turned into
`RateLimitError` carrying `max(reset - now, 60)` before
`raise_for_status` runs; then 404 becomes `NotFound`, 403 becomes
`Forbidden`, any other non-2xx an `HTTPError`; a 2xx returns the body. -/
def make_request {α : Type} (resp : HttpResponse α) (now : Int) : Except ApiError α :=
  if resp.status = 429 then
    .error (.rateLimited (max (resp.rateLimitReset.getD 0 - now) 60))
  else if 400 ≤ resp.status then
    if resp.status = 404 then .error .notFound
    else if resp.status = 403 then .error .forbidden
    else .error (.httpError resp.status)
  else .ok resp.body

/-- Python truthiness of an optional integer argument (`if max_count:`,
`if max_pages and ...`): `None` and `0` are falsy. -/
def pyTruthyNat : Option Nat → Bool
  | none => false
  | some n => !(n == 0)

/-- Python truthiness test `not email` for an optional string:
`None` and the empty string are falsy. -/
def pyFalsyStr : Option String → Bool
  | none => true
  | some s => s == ""

/-! ## Email discovery (`github_client.py`) -/

/-- A commit author candidate as read by the discovery strategies
(`commit["author"]["email"]` resp. `commit["commit"]["author"]["email"]`);
`none` when the author object or its email key is missing. -/
structure PushCommit : Type where
  email : Option String
deriving DecidableEq

/-- An entry of a user event stream: its `type` and the commit list found
under `payload.commits` (empty when the payload has no commits). -/
structure GhEvent : Type where
  type : String
  commits : List PushCommit
deriving DecidableEq

/-- An entry of `/users/{username}/repos` as read by
`_extract_email_from_user_repos`: repo `name` and `owner.login`. -/
structure OwnedRepo : Type where
  name : String
  owner_login : String
deriving DecidableEq

/-- Python `str.endswith`: the tail of the character sequence equals the
suffix. -/
def pyEndsWith (s sfx : String) : Bool :=
  sfx.toList == s.toList.drop (s.toList.length - sfx.toList.length)

/-- Python `str.startswith` on `String`s: the head of the character
sequence equals the given front part. -/
def pyStartsWithS (s front : String) : Bool :=
  front.toList == s.toList.take front.toList.length

/-- Python `c in s` for a one-character needle. -/
def pyContainsChar (s : String) (c : Char) : Bool := s.toList.contains c

/-- The candidate-email acceptance condition written inline (identically)
in `_extract_email_from_commits`, `_extract_email_from_events` and
`_extract_email_from_user_repos`:
`email and not email.endswith("@users.noreply.github.com") and "@" in email
and not email.startswith("noreply")`. -/
def email_filter (email : String) : Bool :=
  !(email == "") &&
  !(pyEndsWith email "@users.noreply.github.com") &&
  pyContainsChar email '@' &&
  !(pyStartsWithS email "noreply")

/-- The inner commit loop common to the three strategies: take the first
commit whose author email is present and truthy
(`if commit.get("author", {}).get("email"):`) and passes the filter;
commits failing either check are skipped. -/
def scan_commits : List PushCommit → Option String
  | [] => none
  | c :: cs =>
    match c.email with
    | some e =>
      if !(e == "") then
        if email_filter e then some e else scan_commits cs
      else scan_commits cs
    | none => scan_commits cs

/-- `GitHubClient._extract_email_from_commits` (strategy 1): scan the
event stream for `PushEvent` entries and return the first accepted
commit author email. -/
def extract_email_from_commits : List GhEvent → Option String
  | [] => none
  | ev :: rest =>
    if ev.type == "PushEvent" then
      match scan_commits ev.commits with
      | some e => some e
      | none => extract_email_from_commits rest
    else extract_email_from_commits rest

/-- `GitHubClient._extract_email_from_events` (strategy 2): scan the
public event stream for `CreateEvent` entries whose payload embeds a
non-empty commit list (`if event.get("payload", {}).get("commits"):`). -/
def extract_email_from_events : List GhEvent → Option String
  | [] => none
  | ev :: rest =>
    if ev.type == "CreateEvent" && !ev.commits.isEmpty then
      match scan_commits ev.commits with
      | some e => some e
      | none => extract_email_from_events rest
    else extract_email_from_events rest

/-- The repo loop of `_extract_email_from_user_repos`: for each repo whose
owner login matches the subject, fetch its recent commits (a fallible call
whose failure is caught by the inner `try/except` and skipped) and scan
them; `commitsFor` maps a repo name to that commit list. -/
def scan_owned_repos (username : String)
    (commitsFor : String → Except ApiError (List PushCommit)) :
    List OwnedRepo → Option String
  | [] => none
  | r :: rs =>
    if r.owner_login == username then
      match commitsFor r.name with
      | .error _ => scan_owned_repos username commitsFor rs
      | .ok commits =>
        match scan_commits commits with
        | some e => some e
        | none => scan_owned_repos username commitsFor rs
    else scan_owned_repos username commitsFor rs

/-- `GitHubClient._extract_email_from_user_repos` (strategy 3): only the
first 3 of the fetched repositories are examined (`repos[:3]`). -/
def extract_email_from_user_repos (username : String) (repos : List OwnedRepo)
    (commitsFor : String → Except ApiError (List PushCommit)) : Option String :=
  scan_owned_repos username commitsFor (repos.take 3)

/-- The email selection logic of `GitHubClient.get_user_info`
(github_client.py lines 153-189).  `profile` is `data.get("email")`;
each `s·` is the outcome of one discovery strategy call (the `.error`
case models the strategy call raising, in which case the surrounding
`try/except` leaves the `email` variable unchanged).  Discovery runs only
when `not email and aggressive_email_extraction`; strategy 2 and 3 each
run only while `email` is still falsy. -/
def get_user_info_email (profile : Option String) (aggressive : Bool)
    (s1 s2 s3 : Except ApiError (Option String)) : Option String :=
  if pyFalsyStr profile && aggressive then
    let e1 : Option String := match s1 with
      | .error _ => profile
      | .ok r => r
    let e2 : Option String :=
      if pyFalsyStr e1 then
        match s2 with
        | .error _ => e1
        | .ok r => r
      else e1
    let e3 : Option String :=
      if pyFalsyStr e2 then
        match s3 with
        | .error _ => e2
        | .ok r => r
      else e2
    e3
  else profile

/-! ## Data model (`models.py`) -/

/-- `models.UserInfo`.  All enrichable fields are optional with the
pydantic defaults (`None` / `0`); timestamps are kept as their ISO
strings, the datetime parsing validator being irrelevant to the claims. -/
structure UserInfo : Type where
  login : String
  name : Option String := none
  email : Option String := none
  location : Option String := none
  company : Option String := none
  bio : Option String := none
  blog : Option String := none
  twitter_username : Option String := none
  public_repos : Nat := 0
  followers : Nat := 0
  following : Nat := 0
  created_at : Option String := none
  updated_at : Option String := none
  avatar_url : Option String := none
  html_url : Option String := none
deriving DecidableEq

/-- `models.RepoInfo`. -/
structure RepoInfo : Type where
  name : String
  full_name : String
  owner : String
  description : Option String := none
  html_url : String
  stargazers_count : Nat := 0
  forks_count : Nat := 0
  language : Option String := none
  created_at : Option String := none
  updated_at : Option String := none
deriving DecidableEq

/-- `models.ExtractionResult`.  The `extracted_at` wall-clock timestamp
(`datetime.now()` default) is omitted from the embedding. -/
structure ExtractionResult : Type where
  repository : RepoInfo
  stargazers : List UserInfo := []
  forkers : List UserInfo := []
  total_stargazers : Nat := 0
  total_forkers : Nat := 0
deriving DecidableEq

/-! ## Pagination (`github_client.py`) -/

/-- One item of a stargazer list response: the fields the paginator
projects (`login`, `avatar_url`, `html_url`). -/
structure RawUser : Type where
  login : String
  avatar_url : String
  html_url : String
deriving DecidableEq

/-- One item of a fork list response: the projected fields live on the
nested `owner` object. -/
structure RawFork : Type where
  owner : RawUser
deriving DecidableEq

/-- The response to one page request: the decoded item list, or the
`GitHubAPIError` the transport raised for that request. -/
abbrev Page (α : Type) : Type := Except ApiError (List α)

/-- The minimal `UserInfo` built by the list walks:
`UserInfo(login=..., avatar_url=..., html_url=...)`, every other field at
its pydantic default. -/
def minimalUser (u : RawUser) : UserInfo :=
  { login := u.login, avatar_url := some u.avatar_url, html_url := some u.html_url }

/-- The `while True` walk of `GitHubClient._paginate_users`
(github_client.py lines 264-298), generic in the per-item projection.
`pages` is the upstream response stream for pages `page, page+1, ...`
(beyond it every page is empty); the loop breaks before the request when
`max_pages and page > max_pages`, breaks after an empty page, and
otherwise appends the projected items and moves to the next page.  An
exception on a later page propagates, discarding the accumulated list. -/
def paginateLoop {α : Type} (proj : α → UserInfo) (maxPages : Option Nat) :
    List (Page α) → Nat → Except ApiError (List UserInfo)
  | [], _ => .ok []
  | p :: rest, page =>
    if pyTruthyNat maxPages && decide (maxPages.getD 0 < page) then .ok []
    else
      match p with
      | .error e => .error e
      | .ok [] => .ok []
      | .ok items =>
        match paginateLoop proj maxPages rest (page + 1) with
        | .error e => .error e
        | .ok us => .ok (items.map proj ++ us)

/-- `GitHubClient._paginate_users`: pages are requested starting at 1 with
query parameters `{page, per_page}` (the `per_page` value shapes the
`pages` stream upstream and is otherwise unused); each item is projected
to a minimal `UserInfo`. -/
def paginate_users (pages : List (Page RawUser)) (per_page : Nat)
    (maxPages : Option Nat) : Except ApiError (List UserInfo) :=
  let _ := per_page
  paginateLoop minimalUser maxPages pages 1

/-- `GitHubClient.get_stargazers`: delegates to the generic paginator on
the stargazers endpoint. -/
def get_stargazers (pages : List (Page RawUser)) (per_page : Nat)
    (maxPages : Option Nat) : Except ApiError (List UserInfo) :=
  paginate_users pages per_page maxPages

/-- The `while True` walk written out a second time inside
`GitHubClient.get_forks` (github_client.py lines 224-262): identical stop
conditions, but each fork entry contributes
`UserInfo(login=owner["login"], avatar_url=owner["avatar_url"],
html_url=owner["html_url"])` from its nested `owner` object. -/
def getForksLoop (maxPages : Option Nat) :
    List (Page RawFork) → Nat → Except ApiError (List UserInfo)
  | [], _ => .ok []
  | p :: rest, page =>
    if pyTruthyNat maxPages && decide (maxPages.getD 0 < page) then .ok []
    else
      match p with
      | .error e => .error e
      | .ok [] => .ok []
      | .ok forks =>
        match getForksLoop maxPages rest (page + 1) with
        | .error e => .error e
        | .ok us =>
          .ok (forks.map (fun fork =>
            { login := fork.owner.login,
              avatar_url := some fork.owner.avatar_url,
              html_url := some fork.owner.html_url }) ++ us)

/-- `GitHubClient.get_forks`. -/
def get_forks (pages : List (Page RawFork)) (per_page : Nat)
    (maxPages : Option Nat) : Except ApiError (List UserInfo) :=
  let _ := per_page
  getForksLoop maxPages pages 1

/-! ## Extraction orchestrator (`extractor.py`) -/

/-- The client as seen by `GitHubExtractor` for one repository: the
outcome of the repository-metadata fetch, the upstream page streams
behind `get_stargazers` / `get_forks`, and the outcome of
`get_user_info login aggressive` for each user. -/
structure ClientEnv : Type where
  repoResult : Except ApiError RepoInfo
  starPages : List (Page RawUser)
  forkPages : List (Page RawFork)
  userInfo : String → Bool → Except ApiError UserInfo

/-- One step of the enrichment loop of `_extract_stargazers` /
`_extract_forkers`: replace the record by the detailed fetch, keeping the
original record when that fetch raises (`try/except` per user). -/
def enrichUser (env : ClientEnv) (aggressive : Bool) (u : UserInfo) : UserInfo :=
  match env.userInfo u.login aggressive with
  | .ok detailed => detailed
  | .error _ => u

/-- `GitHubExtractor._extract_stargazers` (extractor.py lines 137-181):
`per_page = 30`; when `max_count` is truthy, `max_pages` is the ceiling
`(max_count + per_page - 1) // per_page` and the accumulated list is
truncated to `max_count`; when detailed info is requested every record is
enriched in place. -/
def extract_stargazers (env : ClientEnv) (max_count : Option Nat)
    (detailed_info aggressive : Bool) : Except ApiError (List UserInfo) :=
  let per_page : Nat := 30
  let maxPages : Option Nat :=
    if pyTruthyNat max_count then some ((max_count.getD 0 + per_page - 1) / per_page)
    else none
  match get_stargazers env.starPages per_page maxPages with
  | .error e => .error e
  | .ok sg =>
    let sg := if pyTruthyNat max_count then sg.take (max_count.getD 0) else sg
    .ok (if detailed_info then sg.map (enrichUser env aggressive) else sg)

/-- `GitHubExtractor._extract_forkers` (extractor.py lines 183-227):
identical shape, sourced from `get_forks`. -/
def extract_forkers (env : ClientEnv) (max_count : Option Nat)
    (detailed_info aggressive : Bool) : Except ApiError (List UserInfo) :=
  let per_page : Nat := 30
  let maxPages : Option Nat :=
    if pyTruthyNat max_count then some ((max_count.getD 0 + per_page - 1) / per_page)
    else none
  match get_forks env.forkPages per_page maxPages with
  | .error e => .error e
  | .ok fk =>
    let fk := if pyTruthyNat max_count then fk.take (max_count.getD 0) else fk
    .ok (if detailed_info then fk.map (enrichUser env aggressive) else fk)

/-- `GitHubExtractor.extract_repository_info` (extractor.py lines 27-97),
after identifier resolution: the repository fetch failure re-raises; the
result starts from the repository record and its reported totals; each
requested section is filled in under a `try/except` that logs and keeps
the section empty on failure. -/
def extract_repository_info (env : ClientEnv)
    (include_stargazers include_forkers : Bool)
    (max_stargazers max_forkers : Option Nat)
    (detailed_user_info aggressive_email_extraction : Bool) :
    Except ApiError ExtractionResult :=
  match env.repoResult with
  | .error e => .error e
  | .ok repo_info =>
    let result0 : ExtractionResult :=
      { repository := repo_info,
        total_stargazers := repo_info.stargazers_count,
        total_forkers := repo_info.forks_count }
    let result1 : ExtractionResult :=
      if include_stargazers then
        match extract_stargazers env max_stargazers detailed_user_info
            aggressive_email_extraction with
        | .ok s => { result0 with stargazers := s }
        | .error _ => result0
      else result0
    let result2 : ExtractionResult :=
      if include_forkers then
        match extract_forkers env max_forkers detailed_user_info
            aggressive_email_extraction with
        | .ok f => { result1 with forkers := f }
        | .error _ => result1
      else result1
    .ok result2

/-! ## Identifier resolution (`extractor.py _parse_repo_identifier`)

Python strings are modelled as `List Char` here so that `str.strip`,
`str.split` and `urlparse` can be reasoned about. -/

/-- Python `str.rstrip`-style removal of the maximal trailing run of
characters satisfying `p`. -/
def pyStripTrail {α : Type} (p : α → Bool) : List α → List α
  | [] => []
  | x :: t =>
    match pyStripTrail p t with
    | [] => if p x then [] else [x]
    | r => x :: r

/-- Python `str.strip`-style removal of leading and trailing characters
satisfying `p`. -/
def pyStrip {α : Type} (p : α → Bool) (l : List α) : List α :=
  pyStripTrail p (l.dropWhile p)

/-- The whitespace class of Python `str.strip()` (ASCII subset). -/
def pyWS (c : Char) : Bool :=
  c == ' ' || c == '\t' || c == '\n' || c == '\r' || c == '\x0b' || c == '\x0c'

/-- Python `str.split(sep)` for a one-character separator: splits at every
occurrence, keeping empty fields (`"a/".split('/') == ["a", ""]`,
`"".split('/') == [""]`). -/
def pySplit (c : Char) : List Char → List (List Char)
  | [] => [[]]
  | x :: t =>
    if x = c then [] :: pySplit c t
    else
      match pySplit c t with
      | [] => [[x]]
      | h :: tl => (x :: h) :: tl

/-- Python `startswith`: the prefix equals the first `p.length` characters. -/
def pyStartsWith (p l : List Char) : Bool := p == l.take p.length

/-- The characters terminating the netloc in `urlparse`
(`/`, `?` and `#`). -/
def netlocEnd (c : Char) : Bool := c == '/' || c == '?' || c == '#'

/-- `urlparse`'s params split (`_splitparams`): remove everything from the
first `;` at or after the last `/` (the whole string counts when it has
no `/`). -/
def dropParams (u : List Char) : List Char :=
  (u.reverse.dropWhile (fun c => !(c == '/'))).reverse ++
    ((u.reverse.takeWhile (fun c => !(c == '/'))).reverse.takeWhile (fun c => !(c == ';')))

/-- `"http://"` as characters. -/
def httpPfx : List Char := ['h', 't', 't', 'p', ':', '/', '/']

/-- `"https://"` as characters. -/
def httpsPfx : List Char := ['h', 't', 't', 'p', 's', ':', '/', '/']

/-- `"github.com"` as characters. -/
def ghHost : List Char := ['g', 'i', 't', 'h', 'u', 'b', '.', 'c', 'o', 'm']

/-- The scheme test `repo_identifier.startswith(('http://', 'https://'))`,
returning what follows the scheme separator when it matches. -/
def urlRest (s : List Char) : Option (List Char) :=
  if pyStartsWith httpsPfx s then some (s.drop 8)
  else if pyStartsWith httpPfx s then some (s.drop 7)
  else none

/-- `urlparse(...).netloc` of a string whose scheme prefix has been
removed: everything up to the first `/`, `?` or `#`. -/
def netlocOf (rest : List Char) : List Char :=
  rest.takeWhile (fun c => !netlocEnd c)

/-- `urlparse(...).path` of the same string: from the end of the netloc
up to the first `?` or `#`, with the params component removed. -/
def pathOf (rest : List Char) : List Char :=
  dropParams ((rest.dropWhile (fun c => !netlocEnd c)).takeWhile
    (fun c => !(c == '?' || c == '#')))

/-- The two `ValueError` shapes of `_parse_repo_identifier`, by intent:
`"Only GitHub repositories are supported"` versus the three invalid-shape
messages. -/
inductive ParseError : Type where
  | unsupportedHost : ParseError
  | invalidIdentifier : ParseError
deriving DecidableEq

/-- The URL branch of `_parse_repo_identifier` (extractor.py lines
114-123): reject a netloc other than `github.com`, then split the path
stripped of slashes and require at least two parts. -/
def parseUrlBranch (rest : List Char) : Except ParseError (List Char × List Char) :=
  if netlocOf rest = ghHost then
    let parts := pySplit '/' (pyStrip (fun c => c == '/') (pathOf rest))
    if 2 ≤ parts.length then .ok (parts.getD 0 [], parts.getD 1 [])
    else .error .invalidIdentifier
  else .error .unsupportedHost

/-- `GitHubExtractor._parse_repo_identifier` (extractor.py lines 99-135):
strip whitespace; URLs go through the `github.com` host check and path
split; otherwise a string containing `/` must split into exactly two
parts; anything else is invalid. -/
def parse_repo_identifier (input : List Char) : Except ParseError (List Char × List Char) :=
  let s := pyStrip pyWS input
  match urlRest s with
  | some rest => parseUrlBranch rest
  | none =>
    if '/' ∈ s then
      let parts := pySplit '/' s
      if parts.length = 2 then .ok (parts.getD 0 [], parts.getD 1 [])
      else .error .invalidIdentifier
    else .error .invalidIdentifier

/-- Count of non-empty fields of a split, for the spec's phrase
"path contains at least two non-empty segments". -/
def countNonEmptyParts (parts : List (List Char)) : Nat :=
  (parts.filter (fun s => !s.isEmpty)).length

/-- Drop the leading run of empty fields of a split, except that a split
consisting only of empty fields collapses to the single empty field
(`pySplit` of the empty string).  Characterises the effect of
left-stripping the separator before splitting. -/
def dropLeadEmpties (X : List (List Char)) : List (List Char) :=
  match X.dropWhile (fun s => s.isEmpty) with
  | [] => [[]]
  | r => r

/-- Drop the trailing run of empty fields of a split, with the same
collapse convention.  Characterises the effect of right-stripping the
separator before splitting. -/
def dropTrailEmpties (X : List (List Char)) : List (List Char) :=
  match pyStripTrail (fun s : List Char => s.isEmpty) X with
  | [] => [[]]
  | r => r

/-- A well-behaved path segment for the resolve-equivalence claim:
non-empty and free of the characters that the URL grammar (or the params
split) would interpret — `/`, `?`, `#`, `;` — as well as whitespace. -/
def validSeg (l : List Char) : Bool :=
  !l.isEmpty &&
    l.all (fun c => !(c == '/') && !(c == '?') && !(c == '#') && !(c == ';') && !pyWS c)

/-! ## Witness fixtures -/

/-- Sample stargazer list items. -/
def wu1 : RawUser := ⟨"alice", "a.png", "h/alice"⟩

/-- Sample stargazer list items. -/
def wu2 : RawUser := ⟨"bob", "b.png", "h/bob"⟩

/-- Sample stargazer list items. -/
def wu3 : RawUser := ⟨"carol", "c.png", "h/carol"⟩

/-- Sample repository record. -/
def wRepo : RepoInfo :=
  { name := "hello", full_name := "octo/hello", owner := "octo",
    html_url := "h/octo/hello", stargazers_count := 50, forks_count := 7 }

/-- A client environment whose repository fetch succeeds, with one
stargazer page of three users, one fork page, and failing enrichment. -/
def wEnv : ClientEnv :=
  { repoResult := .ok wRepo,
    starPages := [.ok [wu1, wu2, wu3]],
    forkPages := [.ok [⟨wu3⟩]],
    userInfo := fun _ _ => .error .networkError }

/-- Sample event stream for the email-discovery witnesses. -/
def wEvents : List GhEvent :=
  [⟨"PushEvent", [⟨some "foo@users.noreply.github.com"⟩, ⟨some "jane@example.com"⟩]⟩]

/-! ## Theorems -/

/-- Claim C6: on HTTP 429 the transport reads `X-RateLimit-Reset` (epoch
seconds, default 0), computes `wait = max(reset - now, 60)`, and fails
with a rate-limit error carrying that wait instead of returning a body;
when the reset time is 30 seconds in the future the wait is exactly 60. -/
theorem C6_rate_limit_wait {α : Type} (resp : HttpResponse α) (now : Int) :
    (resp.status = 429 →
      make_request resp now =
        .error (.rateLimited (max (resp.rateLimitReset.getD 0 - now) 60))) ∧
    (resp.status = 429 → resp.rateLimitReset = some (now + 30) →
      make_request resp now = .error (.rateLimited 60)) := by
  constructor
  · intro h
    simp [make_request, h]
  · intro h hreset
    simp [make_request, h, hreset]

/-- Witness for C6 at a concrete 429 response whose reset lies 30 seconds
after `now = 100`. -/
theorem C6_rate_limit_wait_witness :
    make_request (⟨429, some 130, 0⟩ : HttpResponse Nat) 100 =
      .error (.rateLimited 60) :=
  (C6_rate_limit_wait (⟨429, some 130, 0⟩ : HttpResponse Nat) 100).2 rfl (by norm_num)

/-- Every email returned by the shared commit scan passes the filter. -/
theorem scan_commits_accepts {cs : List PushCommit} {e : String}
    (h : scan_commits cs = some e) : email_filter e = true := by
  induction cs with
  | nil => simp [scan_commits] at h
  | cons c cs ih =>
    unfold scan_commits at h
    rcases hc : c.email with _ | em <;> rw [hc] at h
    · exact ih h
    · by_cases h1 : (em == "") = true
      · simp [h1] at h
        exact ih h
      · rw [Bool.not_eq_true] at h1
        simp only [h1, Bool.not_false, if_true] at h
        by_cases h2 : email_filter em = true
        · rw [if_pos h2] at h
          cases h
          exact h2
        · rw [if_neg h2] at h
          exact ih h

/-- Every email returned by the push-event strategy passes the filter. -/
theorem extract_email_from_commits_accepts {events : List GhEvent} {e : String}
    (h : extract_email_from_commits events = some e) : email_filter e = true := by
  induction events with
  | nil => simp [extract_email_from_commits] at h
  | cons ev rest ih =>
    unfold extract_email_from_commits at h
    by_cases ht : (ev.type == "PushEvent") = true
    · rw [if_pos ht] at h
      rcases hs : scan_commits ev.commits with _ | e2 <;> rw [hs] at h
      · exact ih h
      · cases h
        exact scan_commits_accepts hs
    · rw [if_neg ht] at h
      exact ih h

/-- Every email returned by the public-event strategy passes the filter. -/
theorem extract_email_from_events_accepts {events : List GhEvent} {e : String}
    (h : extract_email_from_events events = some e) : email_filter e = true := by
  induction events with
  | nil => simp [extract_email_from_events] at h
  | cons ev rest ih =>
    unfold extract_email_from_events at h
    by_cases ht : (ev.type == "CreateEvent" && !ev.commits.isEmpty) = true
    · rw [if_pos ht] at h
      rcases hs : scan_commits ev.commits with _ | e2 <;> rw [hs] at h
      · exact ih h
      · cases h
        exact scan_commits_accepts hs
    · rw [if_neg ht] at h
      exact ih h

/-- Every email returned by the repo loop passes the filter. -/
theorem scan_owned_repos_accepts {username : String}
    {commitsFor : String → Except ApiError (List PushCommit)}
    {repos : List OwnedRepo} {e : String}
    (h : scan_owned_repos username commitsFor repos = some e) :
    email_filter e = true := by
  induction repos with
  | nil => simp [scan_owned_repos] at h
  | cons r rs ih =>
    unfold scan_owned_repos at h
    split at h
    · split at h
      · exact ih h
      · split at h
        next e2 hs =>
          cases h
          exact scan_commits_accepts hs
        next hs => exact ih h
    · exact ih h

/-- Claim C5: a candidate email encountered by any of the three discovery
strategies is accepted iff it is non-empty, contains `@`, does not end
with `@users.noreply.github.com`, and does not start with `noreply`; the
named concrete examples behave as stated, and each strategy only ever
returns accepted candidates. -/
theorem C5_email_acceptance :
    (∀ e : String, email_filter e = true ↔
      (e ≠ "" ∧ pyContainsChar e '@' = true ∧
       pyEndsWith e "@users.noreply.github.com" = false ∧
       pyStartsWithS e "noreply" = false)) ∧
    email_filter "foo@users.noreply.github.com" = false ∧
    email_filter "noreply@company.com" = false ∧
    email_filter "jane@example.com" = true ∧
    (∀ (events : List GhEvent) (e : String),
      extract_email_from_commits events = some e → email_filter e = true) ∧
    (∀ (events : List GhEvent) (e : String),
      extract_email_from_events events = some e → email_filter e = true) ∧
    (∀ (username : String) (repos : List OwnedRepo)
      (commitsFor : String → Except ApiError (List PushCommit)) (e : String),
      extract_email_from_user_repos username repos commitsFor = some e →
        email_filter e = true) := by
  refine ⟨?_, by decide, by decide, by decide, ?_, ?_, ?_⟩
  · intro e
    simp only [email_filter, Bool.and_eq_true, Bool.not_eq_true', beq_eq_false_iff_ne,
      ne_eq]
    tauto
  · intro events e h
    exact extract_email_from_commits_accepts h
  · intro events e h
    exact extract_email_from_events_accepts h
  · intro username repos commitsFor e h
    exact scan_owned_repos_accepts h

/-- Witness for C5: a concrete event stream whose first candidate is a
no-reply address; the strategy skips it and returns the accepted second
candidate, which passes the filter. -/
theorem C5_email_acceptance_witness :
    extract_email_from_commits wEvents = some "jane@example.com" ∧
    email_filter "jane@example.com" = true :=
  ⟨by decide, C5_email_acceptance.2.2.2.2.1 wEvents "jane@example.com" (by decide)⟩

/-- Claim C4 counterexample: the gate is Python truthiness (`not email`),
not absence.  With a present-but-empty profile email (`""`) and
aggressive discovery enabled, discovery runs and returns a discovered
address instead of the profile email, so "runs only when the profile
email is absent (otherwise the profile email is returned unchanged)" is
false at this input. -/
theorem C4_counterexample :
    get_user_info_email (some "") true
        (.ok (some "jane@example.com")) (.ok none) (.ok none) =
      some "jane@example.com" ∧
    (some "jane@example.com" : Option String) ≠ some "" := by
  constructor
  · rfl
  · simp

/-- Claim C4 (amended): email discovery runs only when the profile email
is absent **or empty** and aggressive discovery is enabled — otherwise
the profile email is returned unchanged; the three strategies run in
their fixed order, the first accepted (non-empty) candidate is returned
and later strategies are never consulted (the result does not depend on
them); if all strategies are exhausted without an accepted candidate,
the result is absent or empty and no error is raised. -/
theorem C4_email_discovery (profile : Option String) (aggressive : Bool)
    (s1 s2 s3 s2' s3' : Except ApiError (Option String)) (e : String) :
    (pyFalsyStr profile = false ∨ aggressive = false →
      get_user_info_email profile aggressive s1 s2 s3 = profile) ∧
    (pyFalsyStr profile = true → e ≠ "" →
      get_user_info_email profile true (.ok (some e)) s2 s3 = some e ∧
      get_user_info_email profile true (.ok (some e)) s2 s3 =
        get_user_info_email profile true (.ok (some e)) s2' s3') ∧
    (pyFalsyStr profile = true → e ≠ "" →
      get_user_info_email profile true (.ok none) (.ok (some e)) s3 = some e ∧
      get_user_info_email profile true (.ok none) (.ok (some e)) s3 =
        get_user_info_email profile true (.ok none) (.ok (some e)) s3') ∧
    (pyFalsyStr profile = true →
      (s1 = .ok none ∨ ∃ err, s1 = .error err) →
      (s2 = .ok none ∨ ∃ err, s2 = .error err) →
      (s3 = .ok none ∨ ∃ err, s3 = .error err) →
      pyFalsyStr (get_user_info_email profile true s1 s2 s3) = true) := by
  have hshape : pyFalsyStr profile = true → profile = none ∨ profile = some "" := by
    intro hp
    cases profile with
    | none => exact Or.inl rfl
    | some s =>
      refine Or.inr ?_
      simp only [pyFalsyStr, beq_iff_eq] at hp
      rw [hp]
  refine ⟨?_, ?_, ?_, ?_⟩
  · rintro (hp | ha)
    · simp [get_user_info_email, hp]
    · simp [get_user_info_email, ha]
  · intro hp he
    have hee : (e == "") = false := by simpa using he
    rcases hshape hp with h | h <;> subst h <;>
      constructor <;> simp [get_user_info_email, pyFalsyStr, hee]
  · intro hp he
    have hee : (e == "") = false := by simpa using he
    rcases hshape hp with h | h <;> subst h <;>
      constructor <;> simp [get_user_info_email, pyFalsyStr, hee]
  · intro hp h1 h2 h3
    rcases hshape hp with h | h <;> subst h <;>
      rcases h1 with h1 | ⟨err1, h1⟩ <;> rcases h2 with h2 | ⟨err2, h2⟩ <;>
      rcases h3 with h3 | ⟨err3, h3⟩ <;> subst h1 <;> subst h2 <;> subst h3 <;>
      simp [get_user_info_email, pyFalsyStr]

/-- Witness for C4: absent profile email, strategy 1 empty, strategy 2
accepted — strategy 3's outcome (here: a network failure) is irrelevant
and the accepted candidate is returned. -/
theorem C4_email_discovery_witness :
    get_user_info_email none true (.ok none) (.ok (some "jane@example.com"))
        (.error .networkError) = some "jane@example.com" :=
  ((C4_email_discovery none true (.ok none) (.ok (some "jane@example.com"))
      (.error .networkError) (.ok none) (.ok none)
      "jane@example.com").2.2.1 rfl (by decide)).1

/-- An empty first page stops the walk immediately with no records. -/
theorem paginateLoop_head_empty {α : Type} (proj : α → UserInfo)
    (maxPages : Option Nat) (rest : List (Page α)) :
    paginateLoop proj maxPages (.ok [] :: rest) 1 = .ok [] := by
  rcases maxPages with _ | m
  · rfl
  · cases m with
    | zero => rfl
    | succ m => simp [paginateLoop, pyTruthyNat]

/-- With no page cap in effect, the walk over a stream of successful
pages returns the concatenation of the pages before the first empty one,
in page order. -/
theorem paginateLoop_nocap {α : Type} (proj : α → UserInfo)
    (maxPages : Option Nat) (hmp : pyTruthyNat maxPages = false)
    (ls : List (List α)) (p : Nat) :
    paginateLoop proj maxPages (ls.map .ok) p =
      .ok (((ls.takeWhile (fun l => !l.isEmpty)).flatten).map proj) := by
  induction ls generalizing p with
  | nil => simp [paginateLoop]
  | cons l ls ih =>
    rcases l with _ | ⟨x, xs⟩
    · simp [paginateLoop, hmp, List.takeWhile]
    · simp [paginateLoop, hmp, List.takeWhile, ih (p + 1)]

/-- With a non-zero page cap `m`, starting from page counter `p`, the walk
consumes at most `m + 1 - p` further pages. -/
theorem paginateLoop_cap {α : Type} (proj : α → UserInfo) (m : Nat)
    (hm : m ≠ 0) (ls : List (List α)) (p : Nat) :
    paginateLoop proj (some m) (ls.map .ok) p =
      .ok ((((ls.take (m + 1 - p)).takeWhile (fun l => !l.isEmpty)).flatten).map proj) := by
  induction ls generalizing p with
  | nil => simp [paginateLoop]
  | cons l ls ih =>
    by_cases hp : m < p
    · have h1 : m + 1 - p = 0 := by omega
      simp [paginateLoop, pyTruthyNat, hm, hp, h1]
    · have h1 : m + 1 - p = (m + 1 - (p + 1)) + 1 := by omega
      rcases l with _ | ⟨x, xs⟩
      · simp [paginateLoop, pyTruthyNat, hm, hp, h1, List.takeWhile]
      · simp [paginateLoop, pyTruthyNat, hm, hp, h1, List.takeWhile, ih (p + 1)]

/-- A page cap of `0` is falsy, so the walk behaves as uncapped. -/
theorem paginateLoop_zero_cap {α : Type} (proj : α → UserInfo)
    (pages : List (Page α)) (p : Nat) :
    paginateLoop proj (some 0) pages p = paginateLoop proj none pages p := by
  induction pages generalizing p with
  | nil => rfl
  | cons q rest ih =>
    rcases q with e | l
    · rfl
    · rcases l with _ | ⟨x, xs⟩
      · rfl
      · simp [paginateLoop, pyTruthyNat, ih (p + 1)]

/-- The duplicated fork walk equals the generic walk run on the stream of
nested `owner` objects. -/
theorem getForksLoop_eq_paginateLoop (maxPages : Option Nat)
    (pages : List (Page RawFork)) (p : Nat) :
    getForksLoop maxPages pages p =
      paginateLoop minimalUser maxPages
        (pages.map (Except.map (List.map RawFork.owner))) p := by
  induction pages generalizing p with
  | nil => rfl
  | cons q rest ih =>
    rcases q with e | forks
    · simp [getForksLoop, paginateLoop, Except.map]
    · rcases forks with _ | ⟨f, fs⟩
      · simp [getForksLoop, paginateLoop, Except.map]
      · simp only [getForksLoop, paginateLoop, Except.map, List.map_cons, ih (p + 1)]
        rcases paginateLoop minimalUser maxPages
            (rest.map (Except.map (List.map RawFork.owner))) (p + 1) with e | us
        · simp
        · simp [minimalUser, List.map_map, Function.comp_def]

/-- With a non-zero cap `m`, a page counter already past the cap stops
the walk before any request. -/
theorem paginateLoop_past_cap {α : Type} (proj : α → UserInfo) (m : Nat)
    (hm : m ≠ 0) (pages : List (Page α)) (p : Nat) (hp : m < p) :
    paginateLoop proj (some m) pages p = .ok [] := by
  cases pages with
  | nil => rfl
  | cons q rest => simp [paginateLoop, pyTruthyNat, hm, hp]

/-- Claim C7: pages are walked from page 1; the walk stops at the first
page with zero items (returning the concatenation of the earlier pages in
delivery order) or when the next page number would exceed `maxPages`;
`maxPages` is inclusive, so `maxPages = 1` returns exactly the projection
of page 1 whatever lies beyond; with `pageSize = 1` and `maxPages = 1`
(so page 1 holds at most one item) at most one record is returned. -/
theorem C7_pagination_stop :
    (∀ (rest : List (Page RawUser)) (per_page : Nat) (maxPages : Option Nat),
      paginate_users (.ok [] :: rest) per_page maxPages = .ok []) ∧
    (∀ (ls : List (List RawUser)) (per_page : Nat),
      paginate_users (ls.map .ok) per_page none =
        .ok (((ls.takeWhile (fun l => !l.isEmpty)).flatten).map minimalUser)) ∧
    (∀ (pg : Page RawUser) (rest : List (Page RawUser)) (per_page : Nat),
      paginate_users (pg :: rest) per_page (some 1) =
        Except.map (List.map minimalUser) pg) ∧
    (∀ (l : List RawUser) (rest : List (Page RawUser)) (sg : List UserInfo),
      l.length ≤ 1 →
      paginate_users (.ok l :: rest) 1 (some 1) = .ok sg → sg.length ≤ 1) := by
  have hone : ∀ (l : List RawUser) (rest : List (Page RawUser)) (per_page : Nat),
      paginate_users (.ok l :: rest) per_page (some 1) = .ok (l.map minimalUser) := by
    intro l rest per_page
    rcases l with _ | ⟨x, xs⟩
    · simpa using paginateLoop_head_empty minimalUser (some 1) rest
    · simp [paginate_users, paginateLoop, pyTruthyNat,
        paginateLoop_past_cap minimalUser 1 (by decide) rest 2 (by decide)]
  refine ⟨?_, ?_, ?_, ?_⟩
  · intro rest per_page mp
    exact paginateLoop_head_empty minimalUser mp rest
  · intro ls per_page
    exact paginateLoop_nocap minimalUser none rfl ls 1
  · intro pg rest per_page
    rcases pg with e | l
    · simp [paginate_users, paginateLoop, pyTruthyNat, Except.map]
    · rw [hone l rest per_page]
      rfl
  · intro l rest sg hl hsg
    rw [hone l rest 1] at hsg
    cases hsg
    simpa using hl

/-- Witness for C7: a single page holding one record under
`pageSize = 1, maxPages = 1`, followed by a further non-empty page that
is never fetched; exactly one record comes back. -/
theorem C7_pagination_stop_witness :
    (1 : Nat) ≤ 1 ∧
    paginate_users [.ok [wu1], .ok [wu2]] 1 (some 1) = .ok [minimalUser wu1] ∧
    [minimalUser wu1].length ≤ 1 :=
  ⟨le_refl 1, rfl,
    C7_pagination_stop.2.2.2 [wu1] [.ok [wu2]] [minimalUser wu1] (by decide) rfl⟩

/-- Claim C9: the fork-list walk is the generic user paginator run on the
stream of nested `owner` objects of each fork entry — same stop
conditions, same order, same minimal projection. -/
theorem C9_forks_refinement (pages : List (Page RawFork)) (per_page : Nat)
    (maxPages : Option Nat) :
    get_forks pages per_page maxPages =
      paginate_users (pages.map (Except.map (List.map RawFork.owner)))
        per_page maxPages :=
  getForksLoop_eq_paginateLoop maxPages pages 1

/-- Claim C10: a caller-supplied cap of 0 (`max_stargazers=0`,
`max_forkers=0`, or `max_pages=0`) is falsy in Python and therefore means
"no cap": the paginator fetches all pages until the first empty one and
no truncation is applied. -/
theorem C10_zero_cap :
    (∀ (pages : List (Page RawUser)) (per_page : Nat),
      paginate_users pages per_page (some 0) = paginate_users pages per_page none) ∧
    (∀ (pages : List (Page RawFork)) (per_page : Nat),
      get_forks pages per_page (some 0) = get_forks pages per_page none) ∧
    (∀ (env : ClientEnv) (d a : Bool),
      extract_stargazers env (some 0) d a = extract_stargazers env none d a ∧
      extract_forkers env (some 0) d a = extract_forkers env none d a) ∧
    (∀ (env : ClientEnv) (iS iF d a : Bool),
      extract_repository_info env iS iF (some 0) (some 0) d a =
        extract_repository_info env iS iF none none d a) ∧
    (∀ (r : Except ApiError RepoInfo) (ls : List (List RawUser))
       (fp : List (Page RawFork)) (ui : String → Bool → Except ApiError UserInfo)
       (a : Bool),
      extract_stargazers ⟨r, ls.map .ok, fp, ui⟩ (some 0) false a =
        .ok (((ls.takeWhile (fun l => !l.isEmpty)).flatten).map minimalUser)) := by
  refine ⟨?_, ?_, ?_, ?_, ?_⟩
  · intro pages per_page
    exact paginateLoop_zero_cap minimalUser pages 1
  · intro pages per_page
    show getForksLoop (some 0) pages 1 = getForksLoop none pages 1
    rw [getForksLoop_eq_paginateLoop, getForksLoop_eq_paginateLoop]
    exact paginateLoop_zero_cap minimalUser _ 1
  · intro env d a
    constructor
    · simp [extract_stargazers, pyTruthyNat]
    · simp [extract_forkers, pyTruthyNat]
  · intro env iS iF d a
    simp [extract_repository_info, extract_stargazers, extract_forkers, pyTruthyNat]
  · intro r ls fp ui a
    have hpag : get_stargazers (ls.map .ok) 30 none =
        .ok (((ls.takeWhile (fun l => !l.isEmpty)).flatten).map minimalUser) :=
      paginateLoop_nocap minimalUser none rfl ls 1
    simp [extract_stargazers, pyTruthyNat, hpag]

/-- The orchestrator in closed form: a repository-fetch error propagates
unchanged; otherwise the report carries the repository, each requested
section's outcome (empty on section failure) and the repository's own
totals. -/
theorem extract_repository_info_eq (env : ClientEnv) (iS iF : Bool)
    (mS mF : Option Nat) (d a : Bool) :
    extract_repository_info env iS iF mS mF d a =
      match env.repoResult with
      | .error e => .error e
      | .ok repo =>
        .ok { repository := repo,
              stargazers :=
                if iS then (extract_stargazers env mS d a).toOption.getD [] else [],
              forkers :=
                if iF then (extract_forkers env mF d a).toOption.getD [] else [],
              total_stargazers := repo.stargazers_count,
              total_forkers := repo.forks_count } := by
  cases hrepo : env.repoResult with
  | error e => simp [extract_repository_info, hrepo]
  | ok repo =>
    rcases hs : extract_stargazers env mS d a with es | s <;>
      rcases hf : extract_forkers env mF d a with ef | f <;>
      cases iS <;> cases iF <;>
      simp [extract_repository_info, hrepo, hs, hf, Except.toOption]

/-- Claim C1: a repository-fetch failure propagates as the (single) fatal
error, so the caller never sees a report without a repository; a
stargazer or forker section failure is caught and leaves just that
section empty while the rest of the report is still assembled; and a
per-user enrichment failure never turns a succeeding section into a
failing one (success of the section is independent of enrichment). -/
theorem C1_error_policy (env : ClientEnv) (iS iF : Bool)
    (mS mF : Option Nat) (d a : Bool) :
    (extract_repository_info env iS iF mS mF d a =
      match env.repoResult with
      | .error e => .error e
      | .ok repo =>
        .ok { repository := repo,
              stargazers :=
                if iS then (extract_stargazers env mS d a).toOption.getD [] else [],
              forkers :=
                if iF then (extract_forkers env mF d a).toOption.getD [] else [],
              total_stargazers := repo.stargazers_count,
              total_forkers := repo.forks_count }) ∧
    (extract_repository_info env iS iF mS mF d a).isOk = env.repoResult.isOk ∧
    (extract_stargazers env mS true a).isOk = (extract_stargazers env mS false a).isOk ∧
    (extract_forkers env mF true a).isOk = (extract_forkers env mF false a).isOk := by
  refine ⟨extract_repository_info_eq env iS iF mS mF d a, ?_, ?_, ?_⟩
  · rw [extract_repository_info_eq env iS iF mS mF d a]
    cases env.repoResult <;> rfl
  · cases hg : get_stargazers env.starPages 30
        (if pyTruthyNat mS = true then some ((mS.getD 0 + 30 - 1) / 30) else none) with
    | error e => simp only [extract_stargazers]; rw [hg]
    | ok sg =>
      simp only [extract_stargazers]
      rw [hg]
      rfl
  · cases hg : get_forks env.forkPages 30
        (if pyTruthyNat mF = true then some ((mF.getD 0 + 30 - 1) / 30) else none) with
    | error e => simp only [extract_forkers]; rw [hg]
    | ok fk =>
      simp only [extract_forkers]
      rw [hg]
      rfl

/-- The stargazer section driver in closed form when a non-zero cap `m`
is supplied: the paginator is called with the inclusive page cap
`ceil(m / 30)`, the accumulated list is truncated to its first `m`
elements, and detailed mode maps the in-place enrichment over it. -/
theorem extract_stargazers_cap (env : ClientEnv) (m : Nat) (hm : m ≠ 0)
    (d a : Bool) :
    extract_stargazers env (some m) d a =
      Except.map
        (fun l => if d then (l.take m).map (enrichUser env a) else l.take m)
        (get_stargazers env.starPages 30 (some ((m + 30 - 1) / 30))) := by
  have htr : pyTruthyNat (some m) = true := by simp [pyTruthyNat, hm]
  have key : extract_stargazers env (some m) d a =
      match get_stargazers env.starPages 30 (some ((m + 30 - 1) / 30)) with
      | .error e => .error e
      | .ok sg => .ok (if d then (sg.take m).map (enrichUser env a) else sg.take m) := by
    simp [extract_stargazers, htr]
  rw [key]
  cases get_stargazers env.starPages 30 (some ((m + 30 - 1) / 30)) <;> rfl

/-- The forker section driver in the same closed form. -/
theorem extract_forkers_cap (env : ClientEnv) (m : Nat) (hm : m ≠ 0)
    (d a : Bool) :
    extract_forkers env (some m) d a =
      Except.map
        (fun l => if d then (l.take m).map (enrichUser env a) else l.take m)
        (get_forks env.forkPages 30 (some ((m + 30 - 1) / 30))) := by
  have htr : pyTruthyNat (some m) = true := by simp [pyTruthyNat, hm]
  have key : extract_forkers env (some m) d a =
      match get_forks env.forkPages 30 (some ((m + 30 - 1) / 30)) with
      | .error e => .error e
      | .ok fk => .ok (if d then (fk.take m).map (enrichUser env a) else fk.take m) := by
    simp [extract_forkers, htr]
  rw [key]
  cases get_forks env.forkPages 30 (some ((m + 30 - 1) / 30)) <;> rfl

/-- Claim C2: with a caller-supplied non-zero cap `m`, each section calls
the paginator with the inclusive page cap `ceil(m / 30)` and truncates to
the first `m` records, so at most `m` records survive; the surviving
records are the prefix of the page-order concatenation the API delivered;
enrichment replaces records in place (a map over the same list); and the
report's totals are the repository's own counts, not the capped ones. -/
theorem C2_cap_and_order (env : ClientEnv) (m : Nat) (d a : Bool) (hm : m ≠ 0) :
    (extract_stargazers env (some m) d a =
      Except.map
        (fun l => if d then (l.take m).map (enrichUser env a) else l.take m)
        (get_stargazers env.starPages 30 (some ((m + 30 - 1) / 30)))) ∧
    (extract_forkers env (some m) d a =
      Except.map
        (fun l => if d then (l.take m).map (enrichUser env a) else l.take m)
        (get_forks env.forkPages 30 (some ((m + 30 - 1) / 30)))) ∧
    (∀ sg, extract_stargazers env (some m) d a = .ok sg → sg.length ≤ m) ∧
    (∀ fk, extract_forkers env (some m) d a = .ok fk → fk.length ≤ m) ∧
    (∀ ls : List (List RawUser), env.starPages = ls.map .ok →
      extract_stargazers env (some m) false a =
        .ok (((((ls.take ((m + 30 - 1) / 30)).takeWhile
          (fun l => !l.isEmpty)).flatten).map minimalUser).take m)) ∧
    (extract_stargazers env (some m) true a =
      Except.map (List.map (enrichUser env a))
        (extract_stargazers env (some m) false a)) ∧
    (∀ (iS iF : Bool) (mF : Option Nat) (repo : RepoInfo) (r : ExtractionResult),
      env.repoResult = .ok repo →
      extract_repository_info env iS iF (some m) mF d a = .ok r →
      r.total_stargazers = repo.stargazers_count ∧
      r.total_forkers = repo.forks_count) := by
  refine ⟨extract_stargazers_cap env m hm d a, extract_forkers_cap env m hm d a,
    ?_, ?_, ?_, ?_, ?_⟩
  · intro sg hsg
    rw [extract_stargazers_cap env m hm d a] at hsg
    cases hg : get_stargazers env.starPages 30 (some ((m + 30 - 1) / 30)) with
    | error e =>
      rw [hg] at hsg
      simp [Except.map] at hsg
    | ok l =>
      rw [hg] at hsg
      simp only [Except.map, Except.map_ok, Except.ok.injEq] at hsg
      subst hsg
      cases d <;> simp [List.length_take]
  · intro fk hfk
    rw [extract_forkers_cap env m hm d a] at hfk
    cases hg : get_forks env.forkPages 30 (some ((m + 30 - 1) / 30)) with
    | error e =>
      rw [hg] at hfk
      simp [Except.map] at hfk
    | ok l =>
      rw [hg] at hfk
      simp only [Except.map, Except.map_ok, Except.ok.injEq] at hfk
      subst hfk
      cases d <;> simp [List.length_take]
  · intro ls hls
    have hm2 : (m + 30 - 1) / 30 ≠ 0 := by
      intro h0
      rw [Nat.div_eq_zero_iff (by norm_num : 0 < 30)] at h0
      omega
    have hpag : get_stargazers env.starPages 30 (some ((m + 30 - 1) / 30)) =
        .ok ((((ls.take ((m + 30 - 1) / 30)).takeWhile
          (fun l => !l.isEmpty)).flatten).map minimalUser) := by
      rw [hls]
      have := paginateLoop_cap minimalUser ((m + 30 - 1) / 30) hm2 ls 1
      simpa using this
    rw [extract_stargazers_cap env m hm false a, hpag]
    rfl
  · rw [extract_stargazers_cap env m hm true a, extract_stargazers_cap env m hm false a]
    cases get_stargazers env.starPages 30 (some ((m + 30 - 1) / 30)) <;> rfl
  · intro iS iF mF repo r hrepo hr
    rw [extract_repository_info_eq env iS iF (some m) mF d a, hrepo] at hr
    simp only [Except.ok.injEq] at hr
    subst hr
    exact ⟨rfl, rfl⟩

/-- Witness for C2: a one-page environment with three stargazers and
cap `m = 2`; two records come back in delivery order, and the report's
totals stay the repository's own counts (50 stars, 7 forks). -/
theorem C2_cap_and_order_witness :
    extract_stargazers wEnv (some 2) false true =
      .ok [minimalUser wu1, minimalUser wu2] ∧
    ([minimalUser wu1, minimalUser wu2] : List UserInfo).length ≤ 2 ∧
    extract_repository_info wEnv true true (some 2) none false true =
      .ok { repository := wRepo,
            stargazers := [minimalUser wu1, minimalUser wu2],
            forkers := [minimalUser wu3],
            total_stargazers := 50, total_forkers := 7 } ∧
    (50 : Nat) = wRepo.stargazers_count ∧ (7 : Nat) = wRepo.forks_count := by
  refine ⟨rfl, ?_, rfl, ?_, ?_⟩
  · exact (C2_cap_and_order wEnv 2 false true (by decide)).2.2.1
      [minimalUser wu1, minimalUser wu2] rfl
  · exact ((C2_cap_and_order wEnv 2 false true (by decide)).2.2.2.2.2.2 true true
      none wRepo _ rfl rfl).1.symm
  · exact ((C2_cap_and_order wEnv 2 false true (by decide)).2.2.2.2.2.2 true true
      none wRepo _ rfl rfl).2.symm

/-! ## Lemmas about the Python string helpers -/

/-- A split always has at least one field. -/
theorem pySplit_ne_nil (c : Char) (l : List Char) : pySplit c l ≠ [] := by
  cases l with
  | nil => simp [pySplit]
  | cons x t =>
    by_cases hx : x = c
    · simp [pySplit, hx]
    · cases hP : pySplit c t with
      | nil => simp [pySplit, hx, hP]
      | cons h tl => simp [pySplit, hx, hP]

/-- Splitting at a leading separator yields a leading empty field. -/
theorem pySplit_cons_self (c : Char) (l : List Char) :
    pySplit c (c :: l) = [] :: pySplit c l := by
  simp [pySplit]

/-- Splitting after a non-separator head prepends it to the first field. -/
theorem pySplit_cons_ne {x c : Char} (hx : x ≠ c) (l : List Char) :
    pySplit c (x :: l) = (x :: (pySplit c l).headI) :: (pySplit c l).tail := by
  cases hP : pySplit c l with
  | nil => exact absurd hP (pySplit_ne_nil c l)
  | cons h tl => simp [pySplit, hx, hP]

/-- A separator-free string splits into the single field it is. -/
theorem pySplit_of_not_mem {c : Char} {l : List Char} (h : c ∉ l) :
    pySplit c l = [l] := by
  induction l with
  | nil => rfl
  | cons x t ih =>
    have hx : x ≠ c := fun hxc => h (hxc ▸ List.mem_cons_self x t)
    have ht : c ∉ t := fun hc => h (List.mem_cons_of_mem x hc)
    rw [pySplit_cons_ne hx, ih ht]
    rfl

/-- Splitting around the first separator: a separator-free front becomes
the first field. -/
theorem pySplit_append_sep {c : Char} {A : List Char} (h : c ∉ A)
    (B : List Char) : pySplit c (A ++ c :: B) = A :: pySplit c B := by
  induction A with
  | nil => simpa using pySplit_cons_self c B
  | cons a A' ih =>
    have ha : a ≠ c := fun hac => h (hac ▸ List.mem_cons_self a A')
    have hA : c ∉ A' := fun hc => h (List.mem_cons_of_mem a hc)
    rw [List.cons_append, pySplit_cons_ne ha, ih hA]
    rfl

/-- The number of fields is one more than the number of separators. -/
theorem pySplit_length (c : Char) (l : List Char) :
    (pySplit c l).length = l.count c + 1 := by
  induction l with
  | nil => rfl
  | cons x t ih =>
    by_cases hx : x = c
    · subst hx
      rw [pySplit_cons_self, List.count_cons_self]
      simp [ih]
    · rw [pySplit_cons_ne hx, List.count_cons_of_ne (Ne.symm hx)]
      cases hP : pySplit c t with
      | nil => exact absurd hP (pySplit_ne_nil c t)
      | cons h tl => simp [hP] at ih ⊢; omega

/-- Right-stripping removes everything exactly when every element
satisfies the predicate. -/
theorem pyStripTrail_eq_nil_iff {α : Type} (p : α → Bool) (l : List α) :
    pyStripTrail p l = [] ↔ ∀ x ∈ l, p x = true := by
  induction l with
  | nil => simp [pyStripTrail]
  | cons x t ih =>
    cases hr : pyStripTrail p t with
    | nil =>
      by_cases hx : p x = true
      · simp [pyStripTrail, hr, hx]
        exact ih.1 hr
      · simp [pyStripTrail, hr, hx]
    | cons r rs =>
      have : ¬ ∀ y ∈ t, p y = true := fun hall => by
        rw [ih.2 hall] at hr
        cases hr
      simp only [pyStripTrail, hr]
      constructor
      · intro h
        cases h
      · intro h
        exact absurd (fun y hy => h y (List.mem_cons_of_mem x hy)) this

/-- Right-stripping is the identity when no element satisfies the
predicate at the end; stated via `getLast?`. -/
theorem pyStripTrail_id_of_getLast {α : Type} (p : α → Bool) (l : List α)
    (h : ∀ d, l.getLast? = some d → p d = false) : pyStripTrail p l = l := by
  induction l with
  | nil => rfl
  | cons x t ih =>
    cases t with
    | nil =>
      have hx := h x rfl
      simp [pyStripTrail, hx]
    | cons y ys =>
      have ht : pyStripTrail p (y :: ys) = y :: ys := by
        apply ih
        intro d hd
        exact h d (by rw [List.getLast?_cons_cons]; exact hd)
      rw [show pyStripTrail p (x :: y :: ys) =
        (match pyStripTrail p (y :: ys) with
          | [] => if p x then [] else [x]
          | r => x :: r) from rfl, ht]

/-- Right-stripping is the identity on lists with no satisfying element. -/
theorem pyStripTrail_id_of_all {α : Type} (p : α → Bool) (l : List α)
    (h : ∀ x ∈ l, p x = false) : pyStripTrail p l = l :=
  pyStripTrail_id_of_getLast p l
    (fun d hd => h d (List.mem_of_getLast?_eq_some hd))

/-- `pyStrip` is the identity on lists with no satisfying element. -/
theorem pyStrip_id_of_all {α : Type} (p : α → Bool) (l : List α)
    (h : ∀ x ∈ l, p x = false) : pyStrip p l = l := by
  unfold pyStrip
  have hd : l.dropWhile p = l := by
    cases l with
    | nil => rfl
    | cons x t => simp [List.dropWhile, h x (List.mem_cons_self x t)]
  rw [hd]
  exact pyStripTrail_id_of_all p l h

/-- The head of a non-trivial right-strip is the original head. -/
theorem pyStripTrail_head {α : Type} (p : α → Bool) (l : List α)
    (h : pyStripTrail p l ≠ []) : (pyStripTrail p l).head? = l.head? := by
  cases l with
  | nil => rfl
  | cons x t =>
    cases hr : pyStripTrail p t with
    | nil =>
      by_cases hx : p x = true
      · rw [show pyStripTrail p (x :: t) =
          (match pyStripTrail p t with
            | [] => if p x then [] else [x]
            | r => x :: r) from rfl, hr] at h ⊢
        simp [hx] at h
      · rw [show pyStripTrail p (x :: t) =
          (match pyStripTrail p t with
            | [] => if p x then [] else [x]
            | r => x :: r) from rfl, hr]
        simp [hx]
    | cons r rs =>
      rw [show pyStripTrail p (x :: t) =
        (match pyStripTrail p t with
          | [] => if p x then [] else [x]
          | r => x :: r) from rfl, hr]
      rfl

/-- The last element surviving a right-strip fails the predicate. -/
theorem pyStripTrail_getLast {α : Type} (p : α → Bool) (l : List α) :
    ∀ d, (pyStripTrail p l).getLast? = some d → p d = false := by
  induction l with
  | nil => intro d hd; cases hd
  | cons x t ih =>
    intro d hd
    rw [show pyStripTrail p (x :: t) =
      (match pyStripTrail p t with
        | [] => if p x then [] else [x]
        | r => x :: r) from rfl] at hd
    cases hr : pyStripTrail p t with
    | nil =>
      rw [hr] at hd
      by_cases hx : p x = true
      · simp [hx] at hd
      · simp only [hx, if_false, Bool.not_eq_true] at hd ⊢
        cases hd
        simpa using hx
    | cons r rs =>
      rw [hr] at hd
      rw [List.getLast?_cons_cons] at hd
      exact ih d (hr ▸ hd)

/-- An element surviving `dropWhile` at the head fails the predicate. -/
theorem dropWhile_head_false {α : Type} (p : α → Bool) (l : List α) :
    ∀ d, (l.dropWhile p).head? = some d → p d = false := by
  induction l with
  | nil => intro d hd; cases hd
  | cons x t ih =>
    intro d hd
    by_cases hx : p x = true
    · rw [List.dropWhile_cons_of_pos hx] at hd
      exact ih d hd
    · rw [List.dropWhile_cons_of_neg hx] at hd
      cases hd
      simpa using hx

/-- Every field of a split is empty exactly when the string is a run of
separators. -/
theorem pySplit_fields_empty_iff (c : Char) (l : List Char) :
    (∀ s ∈ pySplit c l, s = []) ↔ ∀ y ∈ l, y = c := by
  induction l with
  | nil => simp [pySplit]
  | cons x t ih =>
    by_cases hx : x = c
    · subst hx
      rw [pySplit_cons_self]
      simp [ih]
    · cases hP : pySplit c t with
      | nil => exact absurd hP (pySplit_ne_nil c t)
      | cons h tl =>
        rw [pySplit_cons_ne hx, hP]
        constructor
        · intro hcontra
          exact absurd (hcontra (x :: (h :: tl).headI) (by simp)) (by simp)
        · intro hcontra
          exact absurd (hcontra x (List.mem_cons_self x t)) hx

/-- Left-stripping the separator before splitting drops the leading empty
fields of the split. -/
theorem pySplit_dropWhile (c : Char) (l : List Char) :
    pySplit c (l.dropWhile (fun x => x == c)) = dropLeadEmpties (pySplit c l) := by
  induction l with
  | nil => rfl
  | cons x t ih =>
    by_cases hx : x = c
    · subst hx
      rw [List.dropWhile_cons_of_pos (by simp), ih, pySplit_cons_self]
      unfold dropLeadEmpties
      rw [List.dropWhile_cons_of_pos (by simp)]
    · rw [List.dropWhile_cons_of_neg (by simp [hx]), pySplit_cons_ne hx]
      unfold dropLeadEmpties
      rw [List.dropWhile_cons_of_neg (by simp)]


/-- Unfolding of `pyStripTrail` on a cons cell. -/
theorem pyStripTrail_cons {α : Type} (p : α → Bool) (x : α) (t : List α) :
    pyStripTrail p (x :: t) =
      match pyStripTrail p t with
      | [] => if p x then [] else [x]
      | r => x :: r := by
  rw [pyStripTrail]

/-- `pyStripTrail` on a cons cell whose tail strips away entirely. -/
theorem pyStripTrail_cons_of_nil {α : Type} (p : α → Bool) (x : α)
    {t : List α} (h : pyStripTrail p t = []) :
    pyStripTrail p (x :: t) = if p x then [] else [x] := by
  rw [pyStripTrail_cons, h]

/-- `pyStripTrail` on a cons cell whose tail does not strip away. -/
theorem pyStripTrail_cons_of_ne {α : Type} (p : α → Bool) (x : α)
    {t : List α} (h : pyStripTrail p t ≠ []) :
    pyStripTrail p (x :: t) = x :: pyStripTrail p t := by
  rw [pyStripTrail_cons]
  cases hq : pyStripTrail p t with
  | nil => exact absurd hq h
  | cons a b => rfl

/-- `dropTrailEmpties` in the degenerate all-empty case. -/
theorem dropTrailEmpties_of_nil {X : List (List Char)}
    (h : pyStripTrail (fun s : List Char => s.isEmpty) X = []) :
    dropTrailEmpties X = [[]] := by
  unfold dropTrailEmpties
  rw [h]

/-- `dropTrailEmpties` when something non-empty survives. -/
theorem dropTrailEmpties_of_ne {X : List (List Char)}
    (h : pyStripTrail (fun s : List Char => s.isEmpty) X ≠ []) :
    dropTrailEmpties X = pyStripTrail (fun s : List Char => s.isEmpty) X := by
  unfold dropTrailEmpties
  cases hq : pyStripTrail (fun s : List Char => s.isEmpty) X with
  | nil => exact absurd hq h
  | cons a b => rfl

/-- Right-stripping the separator before splitting drops the trailing
empty fields of the split. -/
theorem pySplit_stripTrail (c : Char) (l : List Char) :
    pySplit c (pyStripTrail (fun x => x == c) l) = dropTrailEmpties (pySplit c l) := by
  induction l with
  | nil => rfl
  | cons x t ih =>
    cases hr : pyStripTrail (fun x => x == c) t with
    | nil =>
      have hallc : ∀ y ∈ t, y = c := fun y hy => by
        simpa using (pyStripTrail_eq_nil_iff _ t).1 hr y hy
      have hfields : ∀ s ∈ pySplit c t, s = [] :=
        (pySplit_fields_empty_iff c t).2 hallc
      rw [pyStripTrail_cons_of_nil _ x hr]
      by_cases hx : x = c
      · rw [if_pos (by simp [hx]), hx, pySplit_cons_self]
        have hnil : pyStripTrail (fun s : List Char => s.isEmpty)
            ([] :: pySplit c t) = [] := by
          rw [pyStripTrail_eq_nil_iff]
          intro s hs
          rcases List.mem_cons.1 hs with h1 | h1
          · rw [h1]; rfl
          · rw [hfields s h1]; rfl
        rw [dropTrailEmpties_of_nil hnil]
        rfl
      · rw [if_neg (by simp [hx]), pySplit_cons_ne hx]
        have h0 : pySplit c ([] : List Char) = [[]] := rfl
        rw [h0]
        simp only [List.headI_cons, List.tail_cons]
        cases hP : pySplit c t with
        | nil => exact absurd hP (pySplit_ne_nil c t)
        | cons h tl =>
          have hh : h = [] := hfields h (hP ▸ List.mem_cons_self h tl)
          have htlnil : pyStripTrail (fun s : List Char => s.isEmpty) tl = [] := by
            rw [pyStripTrail_eq_nil_iff]
            intro s hs
            rw [hfields s (hP ▸ List.mem_cons_of_mem h hs)]
            rfl
          rw [pySplit_cons_ne hx t, hP, hh]
          simp only [List.headI_cons, List.tail_cons]
          have hxh : pyStripTrail (fun s : List Char => s.isEmpty)
              ((x :: ([] : List Char)) :: tl) = [x :: ([] : List Char)] := by
            rw [pyStripTrail_cons_of_nil _ _ htlnil]
            simp
          rw [dropTrailEmpties_of_ne (by rw [hxh]; simp), hxh]
    | cons r0 rrest =>
      have hrne : pyStripTrail (fun x => x == c) t ≠ [] := by rw [hr]; simp
      rw [pyStripTrail_cons_of_ne _ x hrne]
      have hPne : pyStripTrail (fun s : List Char => s.isEmpty) (pySplit c t) ≠ [] := by
        intro hnil
        apply hrne
        rw [pyStripTrail_eq_nil_iff]
        have hall : ∀ y ∈ t, y = c := (pySplit_fields_empty_iff c t).1
          (fun s hs => by
            have := (pyStripTrail_eq_nil_iff _ _).1 hnil s hs
            simpa using this)
        intro y hy
        simp [hall y hy]
      have hdtE : dropTrailEmpties (pySplit c t) =
          pyStripTrail (fun s : List Char => s.isEmpty) (pySplit c t) :=
        dropTrailEmpties_of_ne hPne
      by_cases hx : x = c
      · rw [hx, pySplit_cons_self, pySplit_cons_self, ih, hdtE]
        have hcons : pyStripTrail (fun s : List Char => s.isEmpty)
            (([] : List Char) :: pySplit c t) =
            ([] : List Char) :: pyStripTrail (fun s : List Char => s.isEmpty)
              (pySplit c t) :=
          pyStripTrail_cons_of_ne _ _ hPne
        rw [dropTrailEmpties_of_ne (by rw [hcons]; simp), hcons]
      · rw [pySplit_cons_ne hx, ih, hdtE, pySplit_cons_ne hx t]
        cases hP : pySplit c t with
        | nil => exact absurd hP (pySplit_ne_nil c t)
        | cons h tl =>
          cases hq : pyStripTrail (fun s : List Char => s.isEmpty) tl with
          | nil =>
            have hstepP : pyStripTrail (fun s : List Char => s.isEmpty) (h :: tl) =
                if h.isEmpty then [] else [h] :=
              pyStripTrail_cons_of_nil _ _ hq
            by_cases hh : h.isEmpty = true
            · rw [hP, hstepP, if_pos hh] at hPne
              exact absurd rfl hPne
            · rw [hstepP, if_neg hh]
              simp only [List.headI_cons, List.tail_cons]
              have hxh : pyStripTrail (fun s : List Char => s.isEmpty)
                  ((x :: h) :: tl) = [x :: h] := by
                rw [pyStripTrail_cons_of_nil _ _ hq]
                simp
              rw [dropTrailEmpties_of_ne (by rw [hxh]; simp), hxh]
          | cons r' rs' =>
            have hqne : pyStripTrail (fun s : List Char => s.isEmpty) tl ≠ [] := by
              rw [hq]
              simp
            have hstepP : pyStripTrail (fun s : List Char => s.isEmpty) (h :: tl) =
                h :: pyStripTrail (fun s : List Char => s.isEmpty) tl :=
              pyStripTrail_cons_of_ne _ _ hqne
            rw [hstepP]
            simp only [List.headI_cons, List.tail_cons]
            have hxh : pyStripTrail (fun s : List Char => s.isEmpty)
                ((x :: h) :: tl) =
                (x :: h) :: pyStripTrail (fun s : List Char => s.isEmpty) tl :=
              pyStripTrail_cons_of_ne _ _ hqne
            rw [dropTrailEmpties_of_ne (by rw [hxh, hq]; simp), hxh]

/-- Dropping a leading run of satisfying elements does not change the
sublist of failing elements. -/
theorem filter_dropWhile {α : Type} (p : α → Bool) (X : List α) :
    (X.dropWhile p).filter (fun a => !p a) = X.filter (fun a => !p a) := by
  induction X with
  | nil => rfl
  | cons x t ih =>
    by_cases hx : p x = true
    · rw [List.dropWhile_cons_of_pos hx, ih, List.filter_cons]
      simp [hx]
    · rw [List.dropWhile_cons_of_neg hx]

/-- Right-stripping satisfying elements does not change the sublist of
failing elements. -/
theorem filter_pyStripTrail {α : Type} (p : α → Bool) (X : List α) :
    (pyStripTrail p X).filter (fun a => !p a) = X.filter (fun a => !p a) := by
  induction X with
  | nil => rfl
  | cons x t ih =>
    cases hr : pyStripTrail p t with
    | nil =>
      have hall : ∀ y ∈ t, p y = true := (pyStripTrail_eq_nil_iff p t).1 hr
      have hft : t.filter (fun a => !p a) = [] := by
        rw [List.filter_eq_nil_iff]
        intro a ha
        simp [hall a ha]
      rw [pyStripTrail_cons_of_nil _ _ hr]
      by_cases hx : p x = true
      · rw [if_pos hx]
        simp [List.filter_cons, hx, hft]
      · rw [if_neg hx]
        simp [List.filter_cons, hx, hft]
    | cons r rs =>
      rw [pyStripTrail_cons_of_ne _ _ (by rw [hr]; simp),
        List.filter_cons, List.filter_cons, ih]

/-- `dropLeadEmpties` preserves the non-empty fields. -/
theorem countNE_dropLead (X : List (List Char)) :
    (dropLeadEmpties X).filter (fun s => !s.isEmpty) =
      X.filter (fun s => !s.isEmpty) := by
  cases hq : X.dropWhile (fun s => s.isEmpty) with
  | nil =>
    have hall : ∀ s ∈ X, s.isEmpty = true := List.dropWhile_eq_nil_iff.1 hq
    have hfX : X.filter (fun s => !s.isEmpty) = [] := by
      rw [List.filter_eq_nil_iff]
      intro a ha
      simp [hall a ha]
    unfold dropLeadEmpties
    rw [hq, hfX]
    rfl
  | cons a b =>
    have : dropLeadEmpties X = a :: b := by
      unfold dropLeadEmpties
      rw [hq]
    rw [this, ← hq, filter_dropWhile]

/-- `dropTrailEmpties` preserves the non-empty fields. -/
theorem countNE_dropTrail (X : List (List Char)) :
    (dropTrailEmpties X).filter (fun s => !s.isEmpty) =
      X.filter (fun s => !s.isEmpty) := by
  cases hq : pyStripTrail (fun s : List Char => s.isEmpty) X with
  | nil =>
    have hall : ∀ s ∈ X, s.isEmpty = true :=
      (pyStripTrail_eq_nil_iff _ X).1 hq
    have hfX : X.filter (fun s => !s.isEmpty) = [] := by
      rw [List.filter_eq_nil_iff]
      intro a ha
      simp [hall a ha]
    rw [dropTrailEmpties_of_nil hq, hfX]
    rfl
  | cons a b =>
    rw [dropTrailEmpties_of_ne (by rw [hq]; simp), ← filter_pyStripTrail
      (fun s : List Char => s.isEmpty) X]

/-- A list of length at least two whose first and last members satisfy
`p` keeps at least two members after filtering by `p`. -/
theorem two_le_filter {α : Type} (p : α → Bool) (X : List α) (h2 : 2 ≤ X.length)
    (hh : ∀ d, X.head? = some d → p d = true)
    (hl : ∀ d, X.getLast? = some d → p d = true) :
    2 ≤ (X.filter p).length := by
  rcases X with _ | ⟨a, X'⟩
  · simp at h2
  rcases X' with _ | ⟨b, X''⟩
  · simp at h2
  have hpa : p a = true := hh a rfl
  obtain ⟨d, hd⟩ : ∃ d, (b :: X'').getLast? = some d := by
    cases hgl : (b :: X'').getLast? with
    | none => simp [List.getLast?_eq_none_iff] at hgl
    | some d => exact ⟨d, rfl⟩
  have hpd : p d = true := hl d (by rw [List.getLast?_cons_cons]; exact hd)
  have hdfil : d ∈ (b :: X'').filter p :=
    List.mem_filter.2 ⟨List.mem_of_getLast?_eq_some hd, hpd⟩
  have h1 : 0 < ((b :: X'').filter p).length :=
    List.length_pos.2 (fun hnil => by rw [hnil] at hdfil; cases hdfil)
  rw [List.filter_cons, if_pos hpa]
  simp only [List.length_cons]
  omega

/-- If the separator-stripped string still splits into at least two
fields, the original split has at least two non-empty fields. -/
theorem strip_parts_two_le (c : Char) (u : List Char)
    (h : 2 ≤ (pySplit c (pyStrip (fun x => x == c) u)).length) :
    2 ≤ countNonEmptyParts (pySplit c u) := by
  unfold pyStrip at h
  rw [pySplit_stripTrail, pySplit_dropWhile] at h
  unfold countNonEmptyParts
  rw [← countNE_dropLead (pySplit c u),
    ← countNE_dropTrail (dropLeadEmpties (pySplit c u))]
  by_cases hstrip : pyStripTrail (fun s : List Char => s.isEmpty)
      (dropLeadEmpties (pySplit c u)) = []
  · rw [dropTrailEmpties_of_nil hstrip] at h
    simp at h
  · have hZ2 : dropTrailEmpties (dropLeadEmpties (pySplit c u)) =
        pyStripTrail (fun s : List Char => s.isEmpty)
          (dropLeadEmpties (pySplit c u)) :=
      dropTrailEmpties_of_ne hstrip
    cases hq : (pySplit c u).dropWhile (fun s => s.isEmpty) with
    | nil =>
      exfalso
      apply hstrip
      have hY : dropLeadEmpties (pySplit c u) = [[]] := by
        unfold dropLeadEmpties
        rw [hq]
      rw [hY]
      rfl
    | cons a b =>
      have hY : dropLeadEmpties (pySplit c u) = a :: b := by
        unfold dropLeadEmpties
        rw [hq]
      apply two_le_filter _ _ h
      · intro d hd
        rw [hZ2, pyStripTrail_head _ _ hstrip, hY] at hd
        have ha : (List.dropWhile (fun s => List.isEmpty s) (pySplit c u)).head? =
            some d := by
          rw [hq]
          exact hd
        have := dropWhile_head_false (fun s : List Char => s.isEmpty)
          (pySplit c u) d ha
        simp [this]
      · intro d hd
        rw [hZ2] at hd
        have := pyStripTrail_getLast (fun s : List Char => s.isEmpty)
          (dropLeadEmpties (pySplit c u)) d hd
        simp [this]

/-- `parse_repo_identifier` reduces to the URL branch when the stripped
input carries an `http(s)://` scheme. -/
theorem parse_repo_identifier_url {input rest : List Char}
    (h : urlRest (pyStrip pyWS input) = some rest) :
    parse_repo_identifier input = parseUrlBranch rest := by
  simp only [parse_repo_identifier, h]

/-- `parse_repo_identifier` reduces to the bare `owner/repo` branch when
the stripped input carries no scheme. -/
theorem parse_repo_identifier_bare {input : List Char}
    (h : urlRest (pyStrip pyWS input) = none) :
    parse_repo_identifier input =
      (if '/' ∈ pyStrip pyWS input then
        if (pySplit '/' (pyStrip pyWS input)).length = 2 then
          .ok ((pySplit '/' (pyStrip pyWS input)).getD 0 [],
               (pySplit '/' (pyStrip pyWS input)).getD 1 [])
        else .error .invalidIdentifier
      else .error .invalidIdentifier) := by
  simp only [parse_repo_identifier, h]

/-- Claim C3 counterexample: the bare identifier `"a/"` has an empty repo
side, which the claim says is rejected with `InvalidIdentifier`; the code
splits it into exactly two parts (`["a", ""]`) and accepts it, returning
an empty repository name. -/
theorem C3_counterexample :
    parse_repo_identifier ['a', '/'] = .ok (['a'], ([] : List Char)) := rfl

/-- Claim C3 (amended): resolve fails on an `http(s)` URL whose host is
not exactly `github.com` with `UnsupportedHost`; it fails with
`InvalidIdentifier` on a `github.com` URL whose path has fewer than two
non-empty segments and on any bare string whose separator count differs
from one — a bare string with no `/` or more than one `/` is rejected —
while a bare string with exactly one `/` is accepted even when a side is
empty. -/
theorem C3_identifier_errors (input : List Char) :
    (∀ rest, urlRest (pyStrip pyWS input) = some rest →
      netlocOf rest ≠ ghHost →
      parse_repo_identifier input = .error .unsupportedHost) ∧
    (∀ rest, urlRest (pyStrip pyWS input) = some rest →
      netlocOf rest = ghHost →
      countNonEmptyParts (pySplit '/' (pathOf rest)) < 2 →
      parse_repo_identifier input = .error .invalidIdentifier) ∧
    (urlRest (pyStrip pyWS input) = none →
      (pyStrip pyWS input).count '/' ≠ 1 →
      parse_repo_identifier input = .error .invalidIdentifier) ∧
    (urlRest (pyStrip pyWS input) = none →
      (pyStrip pyWS input).count '/' = 1 →
      (parse_repo_identifier input).isOk = true) := by
  refine ⟨?_, ?_, ?_, ?_⟩
  · intro rest hrest hnet
    rw [parse_repo_identifier_url hrest]
    unfold parseUrlBranch
    rw [if_neg hnet]
  · intro rest hrest hnet hcnt
    rw [parse_repo_identifier_url hrest]
    unfold parseUrlBranch
    rw [if_pos hnet]
    have hguard : ¬ 2 ≤ (pySplit '/'
        (pyStrip (fun c => c == '/') (pathOf rest))).length := by
      intro hge
      exact absurd (strip_parts_two_le '/' (pathOf rest) hge) (by omega)
    rw [if_neg hguard]
  · intro hnone hcnt
    rw [parse_repo_identifier_bare hnone]
    by_cases hmem : '/' ∈ pyStrip pyWS input
    · rw [if_pos hmem]
      have hlen : ¬ (pySplit '/' (pyStrip pyWS input)).length = 2 := by
        rw [pySplit_length]
        omega
      rw [if_neg hlen]
    · rw [if_neg hmem]
  · intro hnone hcnt
    rw [parse_repo_identifier_bare hnone]
    have hmem : '/' ∈ pyStrip pyWS input := by
      rw [← List.count_pos_iff]
      omega
    have hlen : (pySplit '/' (pyStrip pyWS input)).length = 2 := by
      rw [pySplit_length, hcnt]
    rw [if_pos hmem, if_pos hlen]
    rfl

/-- Witness for C3 (amended): a non-github host is rejected as
`UnsupportedHost`, and a bare string without `/` as `InvalidIdentifier`. -/
theorem C3_identifier_errors_witness :
    parse_repo_identifier ("http://gitlab.com/a/b".toList) =
      .error .unsupportedHost ∧
    parse_repo_identifier ("abc".toList) = .error .invalidIdentifier :=
  ⟨(C3_identifier_errors ("http://gitlab.com/a/b".toList)).1
      ("gitlab.com/a/b".toList) rfl (by decide),
   (C3_identifier_errors ("abc".toList)).2.2.1 rfl (by decide)⟩

/-- Unpacking of the `validSeg` well-formedness test. -/
theorem validSeg_spec {l : List Char} (h : validSeg l = true) :
    l ≠ [] ∧ ∀ ch ∈ l, ch ≠ '/' ∧ ch ≠ '?' ∧ ch ≠ '#' ∧ ch ≠ ';' ∧
      pyWS ch = false := by
  unfold validSeg at h
  rw [Bool.and_eq_true, List.all_eq_true] at h
  constructor
  · intro hnil
    rw [hnil] at h
    simp at h
  · intro ch hch
    have := h.2 ch hch
    simp only [Bool.and_eq_true, Bool.not_eq_true', beq_eq_false_iff_ne, ne_eq] at this
    exact ⟨this.1.1.1.1, this.1.1.1.2, this.1.1.2, this.1.2, this.2⟩

/-- `pyStartsWith` holds on any extension of the front part. -/
theorem pyStartsWith_append (p x : List Char) : pyStartsWith p (p ++ x) = true := by
  unfold pyStartsWith
  rw [List.take_left]
  simp

/-- A true `pyStartsWith` bounds every character count from below. -/
theorem count_le_of_pyStartsWith {p l : List Char}
    (h : pyStartsWith p l = true) (a : Char) : p.count a ≤ l.count a := by
  unfold pyStartsWith at h
  have hp : p = l.take p.length := by simpa using h
  calc p.count a = (l.take p.length).count a := by rw [← hp]
    _ ≤ l.count a := (List.take_sublist _ _).count_le a

/-- A string with exactly one `/` carries neither URL scheme (each scheme
marker contains two). -/
theorem urlRest_none_of_one_slash {s : List Char} (h : s.count '/' = 1) :
    urlRest s = none := by
  have hhttps : pyStartsWith httpsPfx s = false := by
    by_contra hc
    rw [Bool.not_eq_false] at hc
    have hle := count_le_of_pyStartsWith hc '/'
    rw [h] at hle
    have h2 : httpsPfx.count '/' = 2 := by decide
    omega
  have hhttp : pyStartsWith httpPfx s = false := by
    by_contra hc
    rw [Bool.not_eq_false] at hc
    have hle := count_le_of_pyStartsWith hc '/'
    rw [h] at hle
    have h2 : httpPfx.count '/' = 2 := by decide
    omega
  unfold urlRest
  rw [hhttps, hhttp]
  rfl

/-- The params split is the identity on `;`-free strings. -/
theorem dropParams_id {u : List Char} (h : ';' ∉ u) : dropParams u = u := by
  unfold dropParams
  have hB : ((u.reverse.takeWhile (fun c => !(c == '/'))).reverse).takeWhile
      (fun c => !(c == ';')) =
      (u.reverse.takeWhile (fun c => !(c == '/'))).reverse := by
    rw [List.takeWhile_eq_self_iff]
    intro x hx
    have hx1 : x ∈ u.reverse.takeWhile (fun c => !(c == '/')) :=
      List.mem_reverse.1 hx
    have hx2 : x ∈ u.reverse := (List.takeWhile_sublist _).subset hx1
    have hx3 : x ∈ u := List.mem_reverse.1 hx2
    have : x ≠ ';' := fun hxe => h (hxe ▸ hx3)
    simp [this]
  rw [hB, ← List.reverse_append, List.takeWhile_append_dropWhile,
    List.reverse_reverse]

/-- The flattened extra-segment block of a URL is non-empty when there
are segments. -/
theorem flatten_segs_ne_nil (s : List Char) (rest : List (List Char)) :
    ((List.map (fun s => '/' :: s) (s :: rest)).flatten) ≠ [] := by
  simp

/-- The last character of a flattened extra-segment block is the last
character of its last (non-empty, `/`-free) segment, hence not `/`. -/
theorem flatten_segs_getLast (segs : List (List Char))
    (hs : ∀ s ∈ segs, validSeg s = true) (hne : segs ≠ []) :
    ∀ d, ((List.map (fun s => '/' :: s) segs).flatten).getLast? = some d →
      d ≠ '/' := by
  induction segs with
  | nil => exact absurd rfl hne
  | cons s rest ih =>
    intro d hd
    rw [List.map_cons, List.flatten_cons] at hd
    obtain ⟨hsne, hchars⟩ := validSeg_spec (hs s (List.mem_cons_self s rest))
    cases hrest : rest with
    | nil =>
      rw [hrest] at hd
      simp only [List.map_nil, List.flatten_nil, List.append_nil] at hd
      rcases hsl : s with _ | ⟨c0, s'⟩
      · exact absurd hsl hsne
      · rw [hsl, List.getLast?_cons_cons] at hd
        have hmem : d ∈ s := hsl ▸ List.mem_of_getLast?_eq_some hd
        exact (hchars d hmem).1
    | cons s2 rest2 =>
      rw [hrest, List.getLast?_append_of_ne_nil _ (flatten_segs_ne_nil s2 rest2)]
        at hd
      exact ih (fun t ht => hs t (List.mem_cons_of_mem s (hrest ▸ ht)))
        (by simp [hrest]) d (by rw [hrest]; exact hd)

/-- Splitting `owner/repo[...]` puts `owner` and `repo` in the first two
fields. -/
theorem pySplit_owner_repo (owner repo E : List Char)
    (ho : '/' ∉ owner) (hr : '/' ∉ repo)
    (hE : E = [] ∨ ∃ E', E = '/' :: E') :
    (pySplit '/' (owner ++ '/' :: (repo ++ E))).getD 0 [] = owner ∧
    (pySplit '/' (owner ++ '/' :: (repo ++ E))).getD 1 [] = repo ∧
    2 ≤ (pySplit '/' (owner ++ '/' :: (repo ++ E))).length := by
  rw [pySplit_append_sep ho]
  rcases hE with rfl | ⟨E', rfl⟩
  · rw [List.append_nil, pySplit_of_not_mem hr]
    exact ⟨rfl, rfl, by simp⟩
  · rw [pySplit_append_sep hr]
    refine ⟨rfl, rfl, ?_⟩
    simp only [List.length_cons]
    omega

/-- The last character of the path block `owner/repo[/segs]` is not a
separator. -/
theorem tail_getLast_ne_sep (owner repo : List Char) (segs : List (List Char))
    (hr : validSeg repo = true)
    (hs : ∀ s ∈ segs, validSeg s = true) :
    ∀ d, (owner ++ '/' :: (repo ++ (List.map (fun s => '/' :: s) segs).flatten)).getLast? =
      some d → d ≠ '/' := by
  intro d hd
  obtain ⟨hrne, hrchars⟩ := validSeg_spec hr
  rw [List.getLast?_append_cons] at hd
  cases hsegs : segs with
  | nil =>
    rw [hsegs] at hd
    simp only [List.map_nil, List.flatten_nil, List.append_nil] at hd
    rcases hrl : repo with _ | ⟨c0, r'⟩
    · exact absurd hrl hrne
    · rw [hrl, List.getLast?_cons_cons] at hd
      have hmem : d ∈ repo := hrl ▸ List.mem_of_getLast?_eq_some hd
      exact (hrchars d hmem).1
  | cons s2 rest2 =>
    rw [hsegs] at hd
    rw [show ('/' :: (repo ++ (List.map (fun s => '/' :: s) (s2 :: rest2)).flatten)) =
      ('/' :: repo) ++ (List.map (fun s => '/' :: s) (s2 :: rest2)).flatten from by
        simp] at hd
    rw [List.getLast?_append_of_ne_nil _ (flatten_segs_ne_nil s2 rest2)] at hd
    exact flatten_segs_getLast (s2 :: rest2) (fun t ht => hs t (hsegs ▸ ht))
      (by simp) d hd

/-- The URL branch accepts `github.com/owner/repo[/segs]` and returns the
first two path fields. -/
theorem parseUrlBranch_gh (owner repo : List Char) (segs : List (List Char))
    (ho : validSeg owner = true) (hr : validSeg repo = true)
    (hs : ∀ s ∈ segs, validSeg s = true) :
    parseUrlBranch (ghHost ++ '/' :: (owner ++ '/' :: (repo ++
      (List.map (fun s => '/' :: s) segs).flatten))) = .ok (owner, repo) := by
  obtain ⟨hone, hochars⟩ := validSeg_spec ho
  obtain ⟨hrne, hrchars⟩ := validSeg_spec hr
  set E := (List.map (fun s => '/' :: s) segs).flatten with hE
  set T := owner ++ '/' :: (repo ++ E) with hT
  have hEchars : ∀ ch ∈ E, ch = '/' ∨ ∃ s ∈ segs, ch ∈ s := by
    intro ch hch
    rw [hE, List.mem_flatten] at hch
    obtain ⟨blk, hblk, hchblk⟩ := hch
    rw [List.mem_map] at hblk
    obtain ⟨s, hsmem, rfl⟩ := hblk
    rcases List.mem_cons.1 hchblk with h1 | h1
    · exact Or.inl h1
    · exact Or.inr ⟨s, hsmem, h1⟩
  have hTchars : ∀ ch ∈ T, ch ≠ '?' ∧ ch ≠ '#' ∧ ch ≠ ';' := by
    intro ch hch
    rw [hT] at hch
    rcases List.mem_append.1 hch with h1 | h1
    · have := hochars ch h1
      exact ⟨this.2.1, this.2.2.1, this.2.2.2.1⟩
    · rcases List.mem_cons.1 h1 with h2 | h2
      · rw [h2]
        refine ⟨by decide, by decide, by decide⟩
      · rcases List.mem_append.1 h2 with h3 | h3
        · have := hrchars ch h3
          exact ⟨this.2.1, this.2.2.1, this.2.2.2.1⟩
        · rcases hEchars ch h3 with h4 | ⟨s, hsmem, h4⟩
          · rw [h4]
            refine ⟨by decide, by decide, by decide⟩
          · have := (validSeg_spec (hs s hsmem)).2 ch h4
            exact ⟨this.2.1, this.2.2.1, this.2.2.2.1⟩
  have hdropnet : (ghHost ++ '/' :: T).dropWhile (fun c => !netlocEnd c) =
      '/' :: T := rfl
  have htakeqf : ('/' :: T).takeWhile (fun c => !(c == '?' || c == '#')) =
      '/' :: T := by
    rw [List.takeWhile_eq_self_iff]
    intro x hx
    rcases List.mem_cons.1 hx with h1 | h1
    · rw [h1]
      rfl
    · have := hTchars x h1
      simp [this.1, this.2.1]
  have hparams : dropParams ('/' :: T) = '/' :: T := by
    apply dropParams_id
    intro hmem
    rcases List.mem_cons.1 hmem with h1 | h1
    · cases h1
    · exact (hTchars ';' h1).2.2 rfl
  have hpath : pathOf (ghHost ++ '/' :: T) = '/' :: T := by
    unfold pathOf
    rw [hdropnet, htakeqf, hparams]
  have hstrip : pyStrip (fun c => c == '/') ('/' :: T) = T := by
    unfold pyStrip
    have hdrop1 : ('/' :: T).dropWhile (fun c => c == '/') =
        T.dropWhile (fun c => c == '/') :=
      List.dropWhile_cons_of_pos (by rfl)
    have hdrop2 : T.dropWhile (fun c => c == '/') = T := by
      rcases hol : owner with _ | ⟨o0, o'⟩
      · exact absurd hol hone
      · rw [hT, hol, List.cons_append]
        exact List.dropWhile_cons_of_neg (by
          have := (hochars o0 (hol ▸ List.mem_cons_self o0 o')).1
          simp [this])
    rw [hdrop1, hdrop2]
    apply pyStripTrail_id_of_getLast
    intro d hd
    have := tail_getLast_ne_sep owner repo segs hr hs d (by rw [← hT, ← hE] at *; exact hd)
    simp [this]
  have hnet : netlocOf (ghHost ++ '/' :: T) = ghHost := rfl
  unfold parseUrlBranch
  rw [if_pos hnet, hpath, hstrip]
  obtain ⟨hg0, hg1, hglen⟩ := pySplit_owner_repo owner repo E
    (fun hmem => ((hochars '/' hmem).1) rfl)
    (fun hmem => ((hrchars '/' hmem).1) rfl)
    (by
      rcases hsegs : segs with _ | ⟨s2, rest2⟩
      · exact Or.inl (by rw [hE, hsegs]; rfl)
      · refine Or.inr ⟨s2 ++ (List.map (fun s => '/' :: s) rest2).flatten, ?_⟩
        rw [hE, hsegs]
        simp)
  rw [if_pos (by rw [← hT] at hglen; exact hglen)]
  rw [← hT] at hg0 hg1
  rw [hg0, hg1]

/-- Claim C8: a bare `owner/repo` identifier and any equivalent
`http(s)://github.com/owner/repo` URL — including URLs with extra
trailing path segments, which are ignored — resolve to the identical
`(owner, repo)` pair. -/
theorem C8_resolve_equivalence (owner repo : List Char) (segs : List (List Char))
    (ho : validSeg owner = true) (hr : validSeg repo = true)
    (hs : ∀ s ∈ segs, validSeg s = true) :
    parse_repo_identifier (owner ++ '/' :: repo) = .ok (owner, repo) ∧
    parse_repo_identifier (httpsPfx ++ (ghHost ++ '/' :: (owner ++ '/' :: (repo ++
      (List.map (fun s => '/' :: s) segs).flatten)))) = .ok (owner, repo) ∧
    parse_repo_identifier (httpPfx ++ (ghHost ++ '/' :: (owner ++ '/' :: (repo ++
      (List.map (fun s => '/' :: s) segs).flatten)))) = .ok (owner, repo) := by
  obtain ⟨hone, hochars⟩ := validSeg_spec ho
  obtain ⟨hrne, hrchars⟩ := validSeg_spec hr
  set E := (List.map (fun s => '/' :: s) segs).flatten with hE
  set T := owner ++ '/' :: (repo ++ E) with hT
  have hEchars : ∀ ch ∈ E, ch = '/' ∨ ∃ s ∈ segs, ch ∈ s := by
    intro ch hch
    rw [hE, List.mem_flatten] at hch
    obtain ⟨blk, hblk, hchblk⟩ := hch
    rw [List.mem_map] at hblk
    obtain ⟨s, hsmem, rfl⟩ := hblk
    rcases List.mem_cons.1 hchblk with h1 | h1
    · exact Or.inl h1
    · exact Or.inr ⟨s, hsmem, h1⟩
  have hTws : ∀ ch ∈ T, pyWS ch = false := by
    intro ch hch
    rw [hT] at hch
    rcases List.mem_append.1 hch with h1 | h1
    · exact (hochars ch h1).2.2.2.2
    · rcases List.mem_cons.1 h1 with h2 | h2
      · rw [h2]
        rfl
      · rcases List.mem_append.1 h2 with h3 | h3
        · exact (hrchars ch h3).2.2.2.2
        · rcases hEchars ch h3 with h4 | ⟨s, hsmem, h4⟩
          · rw [h4]
            rfl
          · exact ((validSeg_spec (hs s hsmem)).2 ch h4).2.2.2.2
  have hghws : ∀ ch ∈ ghHost, pyWS ch = false := by decide
  have hhtws : ∀ ch ∈ httpsPfx, pyWS ch = false := by decide
  have hhtws2 : ∀ ch ∈ httpPfx, pyWS ch = false := by decide
  have hXws : ∀ ch ∈ ghHost ++ '/' :: T, pyWS ch = false := by
    intro ch hch
    rcases List.mem_append.1 hch with h1 | h1
    · exact hghws ch h1
    · rcases List.mem_cons.1 h1 with h2 | h2
      · rw [h2]
        rfl
      · exact hTws ch h2
  refine ⟨?_, ?_, ?_⟩
  · have hnows : ∀ ch ∈ owner ++ '/' :: repo, pyWS ch = false := by
      intro ch hch
      rcases List.mem_append.1 hch with h1 | h1
      · exact (hochars ch h1).2.2.2.2
      · rcases List.mem_cons.1 h1 with h2 | h2
        · rw [h2]
          rfl
        · exact (hrchars ch h2).2.2.2.2
    have hstr : pyStrip pyWS (owner ++ '/' :: repo) = owner ++ '/' :: repo :=
      pyStrip_id_of_all pyWS _ hnows
    have hcount : (owner ++ '/' :: repo).count '/' = 1 := by
      rw [List.count_append, List.count_cons_self]
      have h1 : owner.count '/' = 0 :=
        List.count_eq_zero.2 (fun hmem => (hochars '/' hmem).1 rfl)
      have h2 : repo.count '/' = 0 :=
        List.count_eq_zero.2 (fun hmem => (hrchars '/' hmem).1 rfl)
      omega
    have hnone : urlRest (pyStrip pyWS (owner ++ '/' :: repo)) = none := by
      rw [hstr]
      exact urlRest_none_of_one_slash hcount
    rw [parse_repo_identifier_bare hnone, hstr]
    rw [if_pos (List.mem_append.2 (Or.inr (List.mem_cons_self _ _)))]
    have hsplit : pySplit '/' (owner ++ '/' :: repo) = [owner, repo] := by
      rw [pySplit_append_sep (fun hmem2 => (hochars '/' hmem2).1 rfl),
        pySplit_of_not_mem (fun hmem2 => (hrchars '/' hmem2).1 rfl)]
    rw [hsplit]
    rfl
  · have hnows : ∀ ch ∈ httpsPfx ++ (ghHost ++ '/' :: T), pyWS ch = false := by
      intro ch hch
      rcases List.mem_append.1 hch with h1 | h1
      · exact hhtws ch h1
      · exact hXws ch h1
    have hstr : pyStrip pyWS (httpsPfx ++ (ghHost ++ '/' :: T)) =
        httpsPfx ++ (ghHost ++ '/' :: T) :=
      pyStrip_id_of_all pyWS _ hnows
    have hr8 : (httpsPfx ++ (ghHost ++ '/' :: T)).drop 8 = ghHost ++ '/' :: T := by
      rw [show (8 : Nat) = httpsPfx.length from rfl, List.drop_left]
    have hur : urlRest (pyStrip pyWS (httpsPfx ++ (ghHost ++ '/' :: T))) =
        some (ghHost ++ '/' :: T) := by
      rw [hstr]
      unfold urlRest
      rw [pyStartsWith_append, if_pos rfl, hr8]
    rw [parse_repo_identifier_url hur, hT, hE]
    exact parseUrlBranch_gh owner repo segs ho hr hs
  · have hnows : ∀ ch ∈ httpPfx ++ (ghHost ++ '/' :: T), pyWS ch = false := by
      intro ch hch
      rcases List.mem_append.1 hch with h1 | h1
      · exact hhtws2 ch h1
      · exact hXws ch h1
    have hstr : pyStrip pyWS (httpPfx ++ (ghHost ++ '/' :: T)) =
        httpPfx ++ (ghHost ++ '/' :: T) :=
      pyStrip_id_of_all pyWS _ hnows
    have hfalse : pyStartsWith httpsPfx (httpPfx ++ (ghHost ++ '/' :: T)) =
        false := rfl
    have hr7 : (httpPfx ++ (ghHost ++ '/' :: T)).drop 7 = ghHost ++ '/' :: T := by
      rw [show (7 : Nat) = httpPfx.length from rfl, List.drop_left]
    have hur : urlRest (pyStrip pyWS (httpPfx ++ (ghHost ++ '/' :: T))) =
        some (ghHost ++ '/' :: T) := by
      rw [hstr]
      unfold urlRest
      rw [hfalse, pyStartsWith_append, if_neg (by simp), if_pos rfl, hr7]
    rw [parse_repo_identifier_url hur, hT, hE]
    exact parseUrlBranch_gh owner repo segs ho hr hs

/-- Witness for C8: `octo/hello` and
`https://github.com/octo/hello/tree/main` resolve identically. -/
theorem C8_resolve_equivalence_witness :
    parse_repo_identifier ("octo/hello".toList) =
      .ok ("octo".toList, "hello".toList) ∧
    parse_repo_identifier ("https://github.com/octo/hello/tree/main".toList) =
      .ok ("octo".toList, "hello".toList) := by
  have h := C8_resolve_equivalence ("octo".toList) ("hello".toList)
    ["tree".toList, "main".toList] (by decide) (by decide) (by decide)
  refine ⟨?_, ?_⟩
  · rw [show "octo/hello".toList =
      "octo".toList ++ '/' :: "hello".toList from rfl]
    exact h.1
  · rw [show "https://github.com/octo/hello/tree/main".toList =
      httpsPfx ++ (ghHost ++ '/' :: ("octo".toList ++ '/' :: ("hello".toList ++
        (List.map (fun s => '/' :: s) ["tree".toList, "main".toList]).flatten)))
      from rfl]
    exact h.2.1
